import Mathlib

/-!
# Kernel statistics input (`inputs/kernel/kernel.go`)

A shallow embedding of `KernelStats.Gather` and `KernelStats.getProcStat`,
together with the parts of Go's `bytes`, `strings`, `strconv`, `unicode` and
`unicode/utf8` packages that `Gather` calls, followed by theorems about the
field map a collection cycle produces.

Byte buffers (`[]byte`, and Go strings, which are byte sequences) are lists of
`UInt8`.  A Go `map[string]interface{}` whose values are `int64` is an
association list with unique keys, read through `FieldMap.get?`.  A run-time
panic (index out of range) is an explicit outcome.
-/

namespace Kernel

/-! ## Byte buffers -/

/-- A Go `[]byte` or `string`: a finite sequence of bytes. -/
abbrev Bytes := List UInt8

/-- The conversion `[]byte("...")` of a string literal: its UTF-8 encoding. -/
def bytesOf (s : String) : Bytes := s.data.flatMap String.utf8EncodeChar

/-! ## `unicode/utf8` and `unicode` -/

/-- Constant `utf8.RuneSelf`: bytes below it are single-byte runes. -/
def RuneSelf : Nat := 0x80

/-- Constant `utf8.RuneError`, the replacement rune U+FFFD. -/
def RuneError : Nat := 0xFFFD

/-- Constant `utf8.UTFMax`, the longest encoding of a rune. -/
def UTFMax : Nat := 4

/-- Table `utf8.first` together with `utf8.acceptRanges`, for the lead bytes of
multi-byte sequences: the sequence length and the accepted range of the second
byte.  `none` stands for the entries `as` (ASCII) and `xx` (invalid). -/
def first (p0 : Nat) : Option (Nat × Nat × Nat) :=
  if 0xC2 ≤ p0 ∧ p0 ≤ 0xDF then some (2, 0x80, 0xBF)
  else if p0 = 0xE0 then some (3, 0xA0, 0xBF)
  else if 0xE1 ≤ p0 ∧ p0 ≤ 0xEC then some (3, 0x80, 0xBF)
  else if p0 = 0xED then some (3, 0x80, 0x9F)
  else if 0xEE ≤ p0 ∧ p0 ≤ 0xEF then some (3, 0x80, 0xBF)
  else if p0 = 0xF0 then some (4, 0x90, 0xBF)
  else if 0xF1 ≤ p0 ∧ p0 ≤ 0xF3 then some (4, 0x80, 0xBF)
  else if p0 = 0xF4 then some (4, 0x80, 0x8F)
  else none

/-- Test `lo <= b && b <= hi` on a byte. -/
def inRange (lo hi : Nat) (b : UInt8) : Bool :=
  decide (lo ≤ b.toNat) && decide (b.toNat ≤ hi)

/-- Function `utf8.DecodeRune` (and `DecodeRuneInString`): the first rune of `p`
and its width in bytes; `(RuneError, 1)` on an invalid or short encoding,
`(RuneError, 0)` on empty input.  Masks and shifts are written as `%` and `*`. -/
def DecodeRune (p : Bytes) : Nat × Nat :=
  match p with
  | [] => (RuneError, 0)
  | p0 :: t =>
    if p0.toNat < RuneSelf then (p0.toNat, 1)
    else
      match first p0.toNat with
      | none => (RuneError, 1)
      | some (sz, lo, hi) =>
        if p.length < sz then (RuneError, 1)
        else
          match t with
          | [] => (RuneError, 1)
          | b1 :: t1 =>
            if !inRange lo hi b1 then (RuneError, 1)
            else if sz ≤ 2 then (p0.toNat % 32 * 64 + b1.toNat % 64, 2)
            else
              match t1 with
              | [] => (RuneError, 1)
              | b2 :: t2 =>
                if !inRange 0x80 0xBF b2 then (RuneError, 1)
                else if sz ≤ 3 then
                  (p0.toNat % 16 * 4096 + b1.toNat % 64 * 64 + b2.toNat % 64, 3)
                else
                  match t2 with
                  | [] => (RuneError, 1)
                  | b3 :: _ =>
                    if !inRange 0x80 0xBF b3 then (RuneError, 1)
                    else
                      (p0.toNat % 8 * 262144 + b1.toNat % 64 * 4096
                        + b2.toNat % 64 * 64 + b3.toNat % 64, 4)

/-- Function `utf8.RuneStart`: the byte is not a continuation byte. -/
def RuneStart (b : UInt8) : Bool := !inRange 0x80 0xBF b

/-- The backward scan of `utf8.DecodeLastRune`, with `j = start + 1`:
`for start--; start >= lim; start-- { if RuneStart(s[start]) { break } }`
followed by `if start < 0 { start = 0 }`. -/
def lastRuneStart (s : Bytes) (lim : Nat) : Nat → Nat
  | 0 => 0
  | k + 1 =>
    if lim ≤ k then
      if (s.getD k 0 |> RuneStart) then k else lastRuneStart s lim k
    else k

/-- Function `utf8.DecodeLastRune` (and `DecodeLastRuneInString`): the last rune
of `s` and its width. -/
def DecodeLastRune (s : Bytes) : Nat × Nat :=
  if s.length = 0 then (RuneError, 0)
  else
    let r := (s.getD (s.length - 1) 0).toNat
    if r < RuneSelf then (r, 1)
    else
      let start := lastRuneStart s (s.length - UTFMax) (s.length - 1)
      let d := DecodeRune (s.drop start)
      if start + d.2 ≠ s.length then (RuneError, 1) else d

/-- Function `unicode.IsSpace`: the Latin-1 switch, then the `White_Space`
ranges above Latin-1. -/
def IsSpace (r : Nat) : Bool :=
  if r ≤ 0xFF then
    r = 0x09 || r = 0x0A || r = 0x0B || r = 0x0C || r = 0x0D || r = 0x20
      || r = 0x85 || r = 0xA0
  else
    r = 0x1680 || (decide (0x2000 ≤ r) && decide (r ≤ 0x200A)) || r = 0x2028
      || r = 0x2029 || r = 0x202F || r = 0x205F || r = 0x3000

/-- Table `asciiSpace` of packages `bytes` and `strings`. -/
def asciiSpace (c : UInt8) : Bool :=
  c.toNat = 0x09 || c.toNat = 0x0A || c.toNat = 0x0B || c.toNat = 0x0C
    || c.toNat = 0x0D || c.toNat = 0x20

/-! ## `bytes.Fields` -/

/-- The ASCII fast path of `bytes.Fields`; `cur` is the field `s[fieldStart:i]`
read so far, empty while spaces are skipped. -/
def fieldsASCII : Bytes → Bytes → List Bytes
  | [], cur => if cur = [] then [] else [cur]
  | c :: s, cur =>
    if asciiSpace c then
      if cur = [] then fieldsASCII s [] else cur :: fieldsASCII s []
    else fieldsASCII s (cur ++ [c])

/-- The loop of `bytes.FieldsFunc` over `s[i:]`; `start` is `some s[start:i]`
when `start >= 0` and `none` when `start < 0`.  The fuel bounds the number of
runes and is the length of the buffer. -/
def fieldsFuncLoop (f : Nat → Bool) : Nat → Bytes → Option Bytes → List Bytes
  | 0, _, start => start.toList
  | _ + 1, [], start => start.toList
  | fuel + 1, c :: s, start =>
    let rs := if RuneSelf ≤ c.toNat then DecodeRune (c :: s) else (c.toNat, 1)
    if f rs.1 then
      match start with
      | some cur => cur :: fieldsFuncLoop f fuel ((c :: s).drop rs.2) none
      | none => fieldsFuncLoop f fuel ((c :: s).drop rs.2) none
    else
      fieldsFuncLoop f fuel ((c :: s).drop rs.2)
        (some (start.getD [] ++ (c :: s).take rs.2))

/-- Function `bytes.FieldsFunc`. -/
def FieldsFunc (s : Bytes) (f : Nat → Bool) : List Bytes :=
  fieldsFuncLoop f s.length s none

/-- Function `bytes.Fields`: splits around runs of white space; the fast path
when every byte is ASCII, `FieldsFunc(s, unicode.IsSpace)` otherwise. -/
def Fields (s : Bytes) : List Bytes :=
  if s.any (fun c => decide (RuneSelf ≤ c.toNat)) then FieldsFunc s IsSpace
  else fieldsASCII s []

/-! ## `strings.TrimSpace` -/

/-- The loop of `strings.indexFunc(s, f, false)` inside `strings.TrimLeftFunc`:
drops leading runes while `f` holds. -/
def trimLeftLoop (f : Nat → Bool) : Nat → Bytes → Bytes
  | 0, s => s
  | _ + 1, [] => []
  | fuel + 1, c :: s =>
    if f (DecodeRune (c :: s)).1 then
      trimLeftLoop f fuel ((c :: s).drop (DecodeRune (c :: s)).2)
    else c :: s

/-- Function `strings.TrimLeftFunc`. -/
def TrimLeftFunc (s : Bytes) (f : Nat → Bool) : Bytes := trimLeftLoop f s.length s

/-- Function `strings.lastIndexFunc(s, f, false)`: the index of the last rune
for which `f` fails, `none` for `-1`. -/
def lastIndexFunc (f : Nat → Bool) (s : Bytes) : Nat → Nat → Option Nat
  | 0, _ => none
  | fuel + 1, i =>
    if i = 0 then none
    else
      let d := DecodeLastRune (s.take i)
      if f d.1 then lastIndexFunc f s fuel (i - d.2) else some (i - d.2)

/-- Function `strings.TrimRightFunc`. -/
def TrimRightFunc (s : Bytes) (f : Nat → Bool) : Bytes :=
  match lastIndexFunc f s s.length s.length with
  | some i =>
    if RuneSelf ≤ (s.getD i 0).toNat then s.take (i + (DecodeRune (s.drop i)).2)
    else s.take (i + 1)
  | none => []

/-- Function `strings.TrimFunc`. -/
def TrimFunc (s : Bytes) (f : Nat → Bool) : Bytes :=
  TrimRightFunc (TrimLeftFunc s f) f

/-- The second loop of `strings.TrimSpace`, on the reversed rest `s[start:stop]`:
trims ASCII space from the end, falling back on `TrimRightFunc` at a non-ASCII
byte. -/
def trimSpaceRight : Bytes → Bytes
  | [] => []
  | c :: r =>
    if RuneSelf ≤ c.toNat then TrimRightFunc (c :: r).reverse IsSpace
    else if asciiSpace c then trimSpaceRight r
    else (c :: r).reverse

/-- Function `strings.TrimSpace`: the first loop trims ASCII space from the
front, falling back on `TrimFunc` at a non-ASCII byte. -/
def TrimSpace : Bytes → Bytes
  | [] => []
  | c :: s =>
    if RuneSelf ≤ c.toNat then TrimFunc (c :: s) IsSpace
    else if asciiSpace c then TrimSpace s
    else trimSpaceRight (c :: s).reverse

/-! ## `strconv.ParseInt` -/

/-- The two error values a `strconv.NumError` can wrap. -/
inductive NumError
  | ErrSyntax
  | ErrRange
  deriving DecidableEq, Repr

/-- Constant `maxUint64`, also `maxVal` for `bitSize = 64`. -/
def maxUint64 : Nat := 2 ^ 64 - 1

/-- The digit loop of `strconv.ParseUint(s, 10, 64)`; `n` is the `uint64`
accumulator, arithmetic on it wraps modulo `2 ^ 64`. -/
def parseUintLoop : Bytes → Nat → Nat × Option NumError
  | [], n => (n, none)
  | c :: s, n =>
    let lower := c.toNat ||| 0x20
    if 0x30 ≤ c.toNat ∧ c.toNat ≤ 0x39 then
      let d := c.toNat - 0x30
      if 10 ≤ d then (0, some .ErrSyntax)
      else if maxUint64 / 10 + 1 ≤ n then (maxUint64, some .ErrRange)
      else
        let n10 := n * 10 % 2 ^ 64
        let n1 := (n10 + d) % 2 ^ 64
        if n1 < n10 ∨ maxUint64 < n1 then (maxUint64, some .ErrRange)
        else parseUintLoop s n1
    else if 0x61 ≤ lower ∧ lower ≤ 0x7A then
      let d := (lower - 0x61 + 10) % 256
      if 10 ≤ d then (0, some .ErrSyntax)
      else if maxUint64 / 10 + 1 ≤ n then (maxUint64, some .ErrRange)
      else
        let n10 := n * 10 % 2 ^ 64
        let n1 := (n10 + d) % 2 ^ 64
        if n1 < n10 ∨ maxUint64 < n1 then (maxUint64, some .ErrRange)
        else parseUintLoop s n1
    else (0, some .ErrSyntax)

/-- Function `strconv.ParseUint(s, 10, 64)`: value and error. -/
def ParseUint (s : Bytes) : Nat × Option NumError :=
  if s = [] then (0, some .ErrSyntax) else parseUintLoop s 0

/-- The conversion `int64(un)` of a `uint64`, and the wrap-around of `int64`
arithmetic: the representative of `x` modulo `2 ^ 64` in `[-2^63, 2^63)`. -/
def toInt64 (x : Int) : Int := (x + 2 ^ 63) % 2 ^ 64 - 2 ^ 63

/-- Function `strconv.ParseInt(s, 10, 64)`: value and error (`none` for a nil
error). -/
def ParseInt (s : Bytes) : Int × Option NumError :=
  match s with
  | [] => (0, some .ErrSyntax)
  | c :: rest =>
    let neg := decide (c.toNat = 0x2D)
    let s1 := if c.toNat = 0x2B then rest else if c.toNat = 0x2D then rest else s
    let u := ParseUint s1
    if u.2 = some .ErrSyntax then (0, some .ErrSyntax)
    else if !neg ∧ 2 ^ 63 ≤ u.1 then (2 ^ 63 - 1, some .ErrRange)
    else if neg ∧ 2 ^ 63 < u.1 then (-(2 ^ 63), some .ErrRange)
    else
      let n := toInt64 u.1
      (if neg then toInt64 (-n) else n, none)

/-! ## The plugin -/

/-- Line prefix `interrupts = []byte("intr")`. -/
def interrupts : Bytes := bytesOf "intr"

/-- Line prefix `contextSwitches = []byte("ctxt")`. -/
def contextSwitches : Bytes := bytesOf "ctxt"

/-- Line prefix `processesForked = []byte("processes")`. -/
def processesForked : Bytes := bytesOf "processes"

/-- Line prefix `diskPages = []byte("page")`. -/
def diskPages : Bytes := bytesOf "page"

/-- Line prefix `bootTime = []byte("btime")`. -/
def bootTime : Bytes := bytesOf "btime"

/-- The map `fields` of `Gather`: string keys, `int64` values, keys unique. -/
abbrev FieldMap := List (String × Int)

/-- The map read `fields[k]`, `none` when the key is absent. -/
def FieldMap.get? : FieldMap → String → Option Int
  | [], _ => none
  | (k', v) :: m, k => if k = k' then some v else FieldMap.get? m k

/-- The map write `fields[k] = v`: any earlier value of `k` is replaced. -/
def FieldMap.set (m : FieldMap) (k : String) (v : Int) : FieldMap :=
  (k, v) :: m.filter (fun p => !decide (p.1 = k))

/-- The statement pair
`m, err := strconv.ParseInt(string(t), 10, 64); if err == nil { fields[key] = m }`. -/
def store (fields : FieldMap) (key : String) (t : Bytes) : FieldMap :=
  match ParseInt t with
  | (m, none) => fields.set key m
  | (_, some _) => fields

/-- One iteration of the `for i, field := range dataFields` loop of `Gather`: the
`switch` on `field`.  An index expression `dataFields[i+1]` or `dataFields[i+2]`
out of range panics: the result is `none`. -/
def body (dataFields : List Bytes) (i : Nat) (field : Bytes) (fields : FieldMap) :
    Option FieldMap :=
  if field = interrupts then
    match dataFields[i + 1]? with
    | none => none
    | some t => some (store fields "interrupts" t)
  else if field = contextSwitches then
    match dataFields[i + 1]? with
    | none => none
    | some t => some (store fields "context_switches" t)
  else if field = processesForked then
    match dataFields[i + 1]? with
    | none => none
    | some t => some (store fields "processes_forked" t)
  else if field = bootTime then
    match dataFields[i + 1]? with
    | none => none
    | some t => some (store fields "boot_time" t)
  else if field = diskPages then
    match dataFields[i + 1]? with
    | none => none
    | some t1 =>
      match dataFields[i + 2]? with
      | none => none
      | some t2 => some (store (store fields "disk_pages_in" t1) "disk_pages_out" t2)
  else some fields

/-- The loop `for i, field := range dataFields { ... }` from index `i` on; the
second argument is the part `dataFields[i:]` still to visit.  `none` is a
panic. -/
def rangeLoop (dataFields : List Bytes) : List Bytes → Nat → FieldMap → Option FieldMap
  | [], _, fields => some fields
  | field :: rest, i, fields =>
    match body dataFields i field fields with
    | none => none
    | some fields1 => rangeLoop dataFields rest (i + 1) fields1

/-- The error classes of `os.Stat` and `os.ReadFile` that the plugin tells
apart: `os.IsNotExist(err)` or any other error. -/
inductive OsError
  | notExist
  | other
  deriving DecidableEq, Repr

/-- What the operating system answers to the calls of one collection cycle:
`os.Stat(s.statFile)` (`none` for a nil error), `os.ReadFile(s.statFile)` and
`os.ReadFile(s.entropyStatFile)`. -/
structure Host where
  statStatFile : Option OsError
  readStatFile : Except OsError Bytes
  readEntropyStatFile : Except OsError Bytes

/-- The error of `getProcStat`: the formatted "does not exist" error, or the
error of `os.Stat` or `os.ReadFile` passed on. -/
inductive ProcStatError
  | doesNotExist
  | os (e : OsError)
  deriving DecidableEq, Repr

/-- Method `KernelStats.getProcStat`. -/
def getProcStat (h : Host) : Except ProcStatError Bytes :=
  match h.statStatFile with
  | some .notExist => .error .doesNotExist
  | some e => .error (.os e)
  | none =>
    match h.readStatFile with
    | .error e => .error (.os e)
    | .ok data => .ok data

/-- The three `log.Println("E! failed to ...")` lines of `Gather`. -/
inductive LogLine
  | failedToReadStatFile (e : ProcStatError)
  | failedToReadEntropyStatFile (e : OsError)
  | failedToParseEntropyStatFile (e : NumError)
  deriving DecidableEq, Repr

/-- How a call of `Gather` ends: a run-time panic; an early `return` after one
logged line, with `samples` still nil; or the final `return` of
`inputs.NewSamples(fields)`. -/
inductive Outcome
  | panic
  | logged (line : LogLine)
  | samples (fields : FieldMap)
  deriving DecidableEq, Repr

/-- Method `KernelStats.Gather`. -/
def Gather (h : Host) : Outcome :=
  match getProcStat h with
  | .error e => .logged (.failedToReadStatFile e)
  | .ok data =>
    match h.readEntropyStatFile with
    | .error e => .logged (.failedToReadEntropyStatFile e)
    | .ok entropyData =>
      match ParseInt (TrimSpace entropyData) with
      | (_, some e) => .logged (.failedToParseEntropyStatFile e)
      | (entropyValue, none) =>
        let fields := FieldMap.set [] "entropy_avail" entropyValue
        let dataFields := Fields data
        match rangeLoop dataFields dataFields 0 fields with
        | none => .panic
        | some fields1 => .samples fields1

/-- The samples `Gather` returns, for any conversion `NewSamples` of package
`inputs` (not part of this file): none at all after an early return, `none`
when the call panics instead of returning. -/
def returned {σ : Type} (NewSamples : FieldMap → List σ) : Outcome → Option (List σ)
  | .panic => none
  | .logged _ => some []
  | .samples fields => some (NewSamples fields)

/-- A cycle in which both files are read: the primary buffer `data` and the
secondary buffer `entropyData`. -/
def readable (data entropyData : Bytes) : Host :=
  { statStatFile := none, readStatFile := .ok data, readEntropyStatFile := .ok entropyData }

/-- The receiver of `Gather`, `type KernelStats struct`: the two paths and the two
configuration values (`Interval` is a `config.Duration`, an `int64`). -/
structure KernelStats where
  statFile : String
  entropyStatFile : String
  PrintConfigs : Bool
  Interval : Int

/-- A file system as the calls of one cycle see it: what `os.Stat` and
`os.ReadFile` answer for each path. -/
structure FileSystem where
  Stat : String → Option OsError
  ReadFile : String → Except OsError Bytes

/-- The answers the sampler `s` gets from the file system `fs` in one cycle:
`os.Stat(s.statFile)`, `os.ReadFile(s.statFile)`, `os.ReadFile(s.entropyStatFile)`. -/
def KernelStats.calls (s : KernelStats) (fs : FileSystem) : Host :=
  { statStatFile := fs.Stat s.statFile, readStatFile := fs.ReadFile s.statFile,
    readEntropyStatFile := fs.ReadFile s.entropyStatFile }

/-- Method `KernelStats.getProcStat`, with its receiver `s` and the file system
its calls `os.Stat(s.statFile)` and `os.ReadFile(s.statFile)` go to. -/
def KernelStats.getProcStat (s : KernelStats) (fs : FileSystem) : Except ProcStatError Bytes :=
  match fs.Stat s.statFile with
  | some .notExist => .error .doesNotExist
  | some e => .error (.os e)
  | none =>
    match fs.ReadFile s.statFile with
    | .error e => .error (.os e)
    | .ok data => .ok data

/-- Method `KernelStats.Gather`, with its receiver `s` (a pointer in the source)
and the file system its calls go to: the outcome of the call and the receiver as
the call leaves it.  The source assigns to no field of `s`. -/
def KernelStats.Gather (s : KernelStats) (fs : FileSystem) : Outcome × KernelStats :=
  match s.getProcStat fs with
  | .error e => (.logged (.failedToReadStatFile e), s)
  | .ok data =>
    match fs.ReadFile s.entropyStatFile with
    | .error e => (.logged (.failedToReadEntropyStatFile e), s)
    | .ok entropyData =>
      match ParseInt (TrimSpace entropyData) with
      | (_, some e) => (.logged (.failedToParseEntropyStatFile e), s)
      | (entropyValue, none) =>
        let fields := FieldMap.set [] "entropy_avail" entropyValue
        let dataFields := Fields data
        match rangeLoop dataFields dataFields 0 fields with
        | none => (.panic, s)
        | some fields1 => (.samples fields1, s)

/-! ## Specification vocabulary -/

/-- The value `strconv.ParseInt` returns together with a nil error, if any. -/
def parsed (t : Bytes) : Option Int :=
  match ParseInt t with
  | (m, none) => some m
  | (_, some _) => none

/-- The keyword table, one row per output field: keyword, offset of the value
token after the keyword, output key. -/
def outputs : List (Bytes × Nat × String) :=
  [(interrupts, 1, "interrupts"), (contextSwitches, 1, "context_switches"),
   (processesForked, 1, "processes_forked"), (bootTime, 1, "boot_time"),
   (diskPages, 1, "disk_pages_in"), (diskPages, 2, "disk_pages_out")]

/-- The token is one of the five recognized keywords. -/
def IsKeyword (t : Bytes) : Prop :=
  t = interrupts ∨ t = contextSwitches ∨ t = processesForked ∨ t = bootTime ∨ t = diskPages

instance (t : Bytes) : Decidable (IsKeyword t) := by unfold IsKeyword; infer_instance

/-- The value last written for a row among the first `n` tokens: scanning back
from token `n - 1`, the first occurrence of `kw` whose value token parses. -/
def lastVal (ts : List Bytes) (kw : Bytes) (d : Nat) : Nat → Option Int
  | 0 => none
  | n + 1 =>
    if ts[n]? = some kw then
      match (ts[n + d]?).bind parsed with
      | some v => some v
      | none => lastVal ts kw d n
    else lastVal ts kw d n

/-- The index expressions of the iteration at token `j` are in range: a keyword
has a next token, and `page` has two. -/
def InRange (ts : List Bytes) (j : Nat) (t : Bytes) : Prop :=
  (IsKeyword t → j + 1 < ts.length) ∧ (t = diskPages → j + 2 < ts.length)

/-- The value of a string of ASCII decimal digits read after the digits that
make up `n`; `none` if a byte is not a decimal digit. -/
def digitsValue : Bytes → Nat → Option Nat
  | [], n => some n
  | c :: s, n =>
    if 0x30 ≤ c.toNat ∧ c.toNat ≤ 0x39 then digitsValue s (n * 10 + (c.toNat - 0x30))
    else none

/-- The mathematical value of a well-formed decimal digit string: an optional
sign `+` or `-` and at least one decimal digit; `none` for any other token. -/
def decimalValue (t : Bytes) : Option Int :=
  match t with
  | [] => none
  | c :: rest =>
    if c.toNat = 0x2B then
      if rest = [] then none else Option.map Int.ofNat (digitsValue rest 0)
    else if c.toNat = 0x2D then
      if rest = [] then none else Option.map (fun u => -Int.ofNat u) (digitsValue rest 0)
    else Option.map Int.ofNat (digitsValue (c :: rest) 0)

/-- The loop of `bytes.FieldsFunc(s, unicode.IsSpace)` run on `s` to its end,
entered with the field `start` in progress. -/
def fieldsFrom (s : Bytes) (start : Option Bytes) : List Bytes :=
  fieldsFuncLoop IsSpace s.length s start

/-! ## The fuel of the library loops is enough -/

theorem DecodeRune_width (c : UInt8) (s : Bytes) :
    1 ≤ (DecodeRune (c :: s)).2 ∧ (DecodeRune (c :: s)).2 ≤ (c :: s).length := by
  rcases s with _ | ⟨b1, _ | ⟨b2, _ | ⟨b3, t⟩⟩⟩ <;> simp only [DecodeRune] <;>
    (repeat' split) <;> simp

theorem lastRuneStart_le (s : Bytes) (lim : Nat) : ∀ j, lastRuneStart s lim j ≤ j := by
  intro j
  induction j with
  | zero => simp [lastRuneStart]
  | succ k ih =>
    simp only [lastRuneStart]
    split_ifs <;> omega

theorem DecodeLastRune_width (s : Bytes) (hs : s ≠ []) :
    1 ≤ (DecodeLastRune s).2 ∧ (DecodeLastRune s).2 ≤ s.length := by
  have hlen : 0 < s.length := List.length_pos.mpr hs
  have hstart := lastRuneStart_le s (s.length - UTFMax) (s.length - 1)
  simp only [DecodeLastRune]
  split_ifs with h0 h1 h2
  · omega
  · exact ⟨le_refl _, hlen⟩
  · exact ⟨le_refl _, hlen⟩
  · simp only [ne_eq, Decidable.not_not] at h2
    constructor <;> omega

/-- With fuel at least the length of the buffer the loop of `FieldsFunc` never runs
out of fuel: more fuel gives the same fields. -/
theorem fieldsFuncLoop_fuel (f : Nat → Bool) :
    ∀ (fuel : Nat) (s : Bytes) (start : Option Bytes), s.length ≤ fuel →
      fieldsFuncLoop f fuel s start = fieldsFuncLoop f s.length s start := by
  intro fuel
  induction fuel using Nat.strong_induction_on with
  | _ fuel ih =>
    intro s start hle
    rcases s with _ | ⟨c, s⟩
    · cases fuel <;> rfl
    · obtain ⟨fuel', rfl⟩ : ∃ k, fuel = k + 1 := ⟨fuel - 1, by simp at hle; omega⟩
      simp only [List.length_cons] at hle ⊢
      simp only [fieldsFuncLoop]
      have hw : 1 ≤ (if RuneSelf ≤ c.toNat then DecodeRune (c :: s) else (c.toNat, 1)).2 := by
        split_ifs
        · exact (DecodeRune_width c s).1
        · simp
      generalize (if RuneSelf ≤ c.toNat then DecodeRune (c :: s) else (c.toNat, 1)) = rs at hw
      have hd : ((c :: s).drop rs.2).length ≤ s.length := by
        simp only [List.length_drop, List.length_cons]; omega
      have e1 := fun st => ih fuel' (by omega) ((c :: s).drop rs.2) st (by omega)
      have e2 := fun st => ih s.length (by omega) ((c :: s).drop rs.2) st hd
      split_ifs
      · rcases start with _ | cur
        · simp only [e1, e2]
        · simp only [e1, e2]
      · simp only [e1, e2]

/-- With fuel at least the length of the string the loop of `TrimLeftFunc` never
runs out of fuel. -/
theorem trimLeftLoop_fuel (f : Nat → Bool) :
    ∀ (fuel : Nat) (s : Bytes), s.length ≤ fuel →
      trimLeftLoop f fuel s = trimLeftLoop f s.length s := by
  intro fuel
  induction fuel using Nat.strong_induction_on with
  | _ fuel ih =>
    intro s hle
    rcases s with _ | ⟨c, s⟩
    · cases fuel <;> rfl
    · obtain ⟨fuel', rfl⟩ : ∃ k, fuel = k + 1 := ⟨fuel - 1, by simp at hle; omega⟩
      simp only [List.length_cons] at hle ⊢
      simp only [trimLeftLoop]
      have hw := (DecodeRune_width c s).1
      have hd : ((c :: s).drop (DecodeRune (c :: s)).2).length ≤ s.length := by
        simp only [List.length_drop, List.length_cons]; omega
      split_ifs
      · rw [ih fuel' (by omega) _ (by omega), ih s.length (by omega) _ hd]
      · rfl

/-- With fuel at least the index the loop of `lastIndexFunc` never runs out of
fuel. -/
theorem lastIndexFunc_fuel (f : Nat → Bool) (s : Bytes) :
    ∀ (fuel i : Nat), i ≤ fuel → i ≤ s.length →
      lastIndexFunc f s fuel i = lastIndexFunc f s i i := by
  intro fuel
  induction fuel using Nat.strong_induction_on with
  | _ fuel ih =>
    intro i hle hlen
    rcases i with _ | i
    · cases fuel <;> simp [lastIndexFunc]
    · obtain ⟨fuel', rfl⟩ : ∃ k, fuel = k + 1 := ⟨fuel - 1, by omega⟩
      simp only [lastIndexFunc]
      have hne : s.take (i + 1) ≠ [] := by
        intro hc
        have := congrArg List.length hc
        simp only [List.length_take, List.length_nil] at this
        omega
      have hw := (DecodeLastRune_width (s.take (i + 1)) hne).1
      rw [if_neg (Nat.succ_ne_zero i), if_neg (Nat.succ_ne_zero i)]
      split_ifs
      · rw [ih fuel' (by omega) _ (by omega) (by omega), ih i (by omega) _ (by omega) (by omega)]
      · rfl

/-! ## Lemmas about the loop -/

theorem parsed_eq_some (t : Bytes) (v : Int) : parsed t = some v ↔ ParseInt t = (v, none) := by
  unfold parsed
  rcases h : ParseInt t with ⟨m, _ | e⟩ <;> simp

theorem parsed_eq_none (t : Bytes) : parsed t = none ↔ (ParseInt t).2 ≠ none := by
  unfold parsed
  rcases h : ParseInt t with ⟨m, _ | e⟩ <;> simp

theorem get?_filter_ne (m : FieldMap) (k k' : String) (h : k' ≠ k) :
    FieldMap.get? (m.filter (fun p => !decide (p.1 = k))) k' = FieldMap.get? m k' := by
  induction m with
  | nil => rfl
  | cons p m ih =>
    obtain ⟨a, b⟩ := p
    by_cases hak : a = k
    · subst hak
      simp [List.filter, FieldMap.get?, h, ih]
    · simp [List.filter, hak, FieldMap.get?, ih]

theorem get?_set (m : FieldMap) (k k' : String) (v : Int) :
    FieldMap.get? (m.set k v) k' = if k' = k then some v else FieldMap.get? m k' := by
  unfold FieldMap.set
  by_cases h : k' = k
  · simp [FieldMap.get?, h]
  · simp [FieldMap.get?, h, get?_filter_ne m k k' h]

theorem get?_store (m : FieldMap) (key k : String) (t : Bytes) :
    FieldMap.get? (store m key t) k
      = if k = key then (match parsed t with
                         | some v => some v
                         | none => FieldMap.get? m k)
        else FieldMap.get? m k := by
  unfold store parsed
  rcases h : ParseInt t with ⟨v, _ | e⟩ <;> simp [get?_set]

theorem keywords_distinct :
    interrupts ≠ contextSwitches ∧ interrupts ≠ processesForked ∧ interrupts ≠ bootTime
      ∧ interrupts ≠ diskPages ∧ contextSwitches ≠ processesForked
      ∧ contextSwitches ≠ bootTime ∧ contextSwitches ≠ diskPages
      ∧ processesForked ≠ bootTime ∧ processesForked ≠ diskPages ∧ bootTime ≠ diskPages := by
  decide

theorem body_get? (ts : List Bytes) (i : Nat) (field : Bytes) (m m' : FieldMap)
    (kw : Bytes) (d : Nat) (key : String) (hrow : (kw, d, key) ∈ outputs)
    (hb : body ts i field m = some m') :
    FieldMap.get? m' key
      = if field = kw then (match (ts[i + d]?).bind parsed with
                            | some v => some v
                            | none => FieldMap.get? m key)
        else FieldMap.get? m key := by
  obtain ⟨h1, h2, h3, h4, h5, h6, h7, h8, h9, h10⟩ := keywords_distinct
  simp only [outputs, List.mem_cons, Prod.mk.injEq, List.mem_singleton, List.not_mem_nil,
    or_false] at hrow
  unfold body at hb
  rcases hrow with ⟨rfl, rfl, rfl⟩ | ⟨rfl, rfl, rfl⟩ | ⟨rfl, rfl, rfl⟩ | ⟨rfl, rfl, rfl⟩
    | ⟨rfl, rfl, rfl⟩ | ⟨rfl, rfl, rfl⟩ <;>
  split_ifs at hb with g1 g2 g3 g4 g5 <;>
  first
  | (subst_vars; simp_all [get?_store, Ne.symm]; done)
  | (subst_vars
     rcases ha : ts[i + 1]? with _ | t1 <;> simp [ha] at hb
     try (rcases hc : ts[i + 2]? with _ | t2 <;> simp [hc] at hb)
     subst hb
     simp_all [get?_store, Ne.symm])

theorem body_other (ts : List Bytes) (i : Nat) (field : Bytes) (m m' : FieldMap) (k : String)
    (hk : ∀ kw d key, (kw, d, key) ∈ outputs → k ≠ key)
    (hb : body ts i field m = some m') : FieldMap.get? m' k = FieldMap.get? m k := by
  have k1 := hk _ _ _ (by simp [outputs] : (interrupts, 1, "interrupts") ∈ outputs)
  have k2 := hk _ _ _ (by simp [outputs] : (contextSwitches, 1, "context_switches") ∈ outputs)
  have k3 := hk _ _ _ (by simp [outputs] : (processesForked, 1, "processes_forked") ∈ outputs)
  have k4 := hk _ _ _ (by simp [outputs] : (bootTime, 1, "boot_time") ∈ outputs)
  have k5 := hk _ _ _ (by simp [outputs] : (diskPages, 1, "disk_pages_in") ∈ outputs)
  have k6 := hk _ _ _ (by simp [outputs] : (diskPages, 2, "disk_pages_out") ∈ outputs)
  unfold body at hb
  split_ifs at hb <;>
  first
  | (simp at hb; subst hb; rfl)
  | (rcases ha : ts[i + 1]? with _ | t1 <;> simp [ha] at hb
     try (rcases hc : ts[i + 2]? with _ | t2 <;> simp [hc] at hb)
     subst hb
     simp [get?_store, k1, k2, k3, k4, k5, k6])

theorem body_isSome (ts : List Bytes) (i : Nat) (field : Bytes) (m : FieldMap) :
    (∃ m', body ts i field m = some m') ↔ InRange ts i field := by
  obtain ⟨h1, h2, h3, h4, h5, h6, h7, h8, h9, h10⟩ := keywords_distinct
  unfold body InRange IsKeyword
  split_ifs with g1 g2 g3 g4 g5 <;> subst_vars
  all_goals
      (rcases ha : ts[i + 1]? with _ | t1
       · have := List.getElem?_eq_none_iff.mp ha
         simp_all [Ne.symm]
         try omega
       · have := (List.getElem?_eq_some_iff.mp ha).1
         first
         | (simp_all [Ne.symm]; done)
         | (rcases hc : ts[i + 2]? with _ | t2
            · have := List.getElem?_eq_none_iff.mp hc
              simp_all [Ne.symm]
            · have := (List.getElem?_eq_some_iff.mp hc).1
              simp_all [Ne.symm]))

theorem drop_cons_inv (ts : List Bytes) (i : Nat) (field : Bytes) (rest : List Bytes)
    (h : ts.drop i = field :: rest) :
    i < ts.length ∧ ts[i]? = some field ∧ ts.drop (i + 1) = rest := by
  have hi : i < ts.length := by
    by_contra hc
    rw [List.drop_eq_nil_of_le (not_lt.mp hc)] at h
    cases h
  rw [List.drop_eq_getElem_cons hi] at h
  injection h with h1 h2
  exact ⟨hi, by rw [List.getElem?_eq_getElem hi, h1], h2⟩

theorem rangeLoop_get? (ts : List Bytes) (kw : Bytes) (d : Nat) (key : String)
    (hrow : (kw, d, key) ∈ outputs) :
    ∀ (rest : List Bytes) (i : Nat) (m m' : FieldMap), ts.drop i = rest → i ≤ ts.length →
      rangeLoop ts rest i m = some m' → FieldMap.get? m key = lastVal ts kw d i →
      FieldMap.get? m' key = lastVal ts kw d ts.length := by
  intro rest
  induction rest with
  | nil =>
    intro i m m' hd hi hl hm
    have : i = ts.length := by
      have := List.drop_eq_nil_iff.mp hd
      omega
    simp only [rangeLoop, Option.some.injEq] at hl
    subst hl; subst this
    exact hm
  | cons field rest ih =>
    intro i m m' hd hi hl hm
    obtain ⟨hlt, hget, hrest⟩ := drop_cons_inv ts i field rest hd
    simp only [rangeLoop] at hl
    rcases hb : body ts i field m with _ | m1
    · simp [hb] at hl
    · simp only [hb] at hl
      refine ih (i + 1) m1 m' hrest hlt hl ?_
      rw [body_get? ts i field m m1 kw d key hrow hb, hm]
      simp only [lastVal, hget, Option.some.injEq]

theorem rangeLoop_other (ts : List Bytes) (k : String)
    (hk : ∀ kw d key, (kw, d, key) ∈ outputs → k ≠ key) :
    ∀ (rest : List Bytes) (i : Nat) (m m' : FieldMap),
      rangeLoop ts rest i m = some m' → FieldMap.get? m' k = FieldMap.get? m k := by
  intro rest
  induction rest with
  | nil =>
    intro i m m' hl
    simp only [rangeLoop, Option.some.injEq] at hl
    subst hl; rfl
  | cons field rest ih =>
    intro i m m' hl
    simp only [rangeLoop] at hl
    rcases hb : body ts i field m with _ | m1
    · simp [hb] at hl
    · simp only [hb] at hl
      rw [ih (i + 1) m1 m' hl, body_other ts i field m m1 k hk hb]

theorem rangeLoop_isSome (ts : List Bytes) :
    ∀ (rest : List Bytes) (i : Nat) (m : FieldMap), ts.drop i = rest →
      ((∃ m', rangeLoop ts rest i m = some m')
        ↔ ∀ j t, i ≤ j → ts[j]? = some t → InRange ts j t) := by
  intro rest
  induction rest with
  | nil =>
    intro i m hd
    have hlen := List.drop_eq_nil_iff.mp hd
    constructor
    · intro _ j t hij hj
      have := (List.getElem?_eq_some_iff.mp hj).1
      omega
    · intro _
      exact ⟨m, rfl⟩
  | cons field rest ih =>
    intro i m hd
    obtain ⟨hlt, hget, hrest⟩ := drop_cons_inv ts i field rest hd
    constructor
    · rintro ⟨m', hl⟩ j t hij hj
      simp only [rangeLoop] at hl
      rcases hb : body ts i field m with _ | m1
      · simp [hb] at hl
      · simp only [hb] at hl
        rcases Nat.eq_or_lt_of_le hij with rfl | hlt2
        · rw [hget] at hj
          cases hj
          exact (body_isSome ts i field m).mp ⟨m1, hb⟩
        · exact (ih (i + 1) m1 hrest).mp ⟨m', hl⟩ j t hlt2 hj
    · intro hall
      obtain ⟨m1, hb⟩ := (body_isSome ts i field m).mpr (hall i field (le_refl i) hget)
      obtain ⟨m', hl⟩ := (ih (i + 1) m1 hrest).mpr
        (fun j t hij hj => hall j t (by omega) hj)
      exact ⟨m', by simp only [rangeLoop, hb, hl]⟩

theorem lastVal_eq_some_iff (ts : List Bytes) (kw : Bytes) (d : Nat) (v : Int) :
    ∀ n, lastVal ts kw d n = some v ↔
      ∃ j, j < n ∧ ts[j]? = some kw ∧ (ts[j + d]?).bind parsed = some v
        ∧ ∀ j', j < j' → j' < n → ts[j']? = some kw → (ts[j' + d]?).bind parsed = none := by
  intro n
  induction n with
  | zero => simp [lastVal]
  | succ n ih =>
    simp only [lastVal]
    by_cases hkw : ts[n]? = some kw
    · simp only [hkw, if_true]
      rcases hp : (ts[n + d]?).bind parsed with _ | w
      · simp only [ih]
        constructor
        · rintro ⟨j, hj, h1, h2, h3⟩
          refine ⟨j, by omega, h1, h2, fun j' hj1 hj2 hj3 => ?_⟩
          rcases Nat.eq_or_lt_of_le (Nat.lt_succ_iff.mp hj2) with rfl | hlt
          · exact hp
          · exact h3 j' hj1 hlt hj3
        · rintro ⟨j, hj, h1, h2, h3⟩
          rcases Nat.eq_or_lt_of_le (Nat.lt_succ_iff.mp hj) with rfl | hlt
          · rw [hp] at h2; cases h2
          · exact ⟨j, hlt, h1, h2, fun j' hj1 hj2 hj3 => h3 j' hj1 (by omega) hj3⟩
      · constructor
        · intro hw
          simp only [Option.some.injEq] at hw
          subst hw
          exact ⟨n, by omega, hkw, hp, fun j' hj1 hj2 _ => by omega⟩
        · rintro ⟨j, hj, h1, h2, h3⟩
          rcases Nat.eq_or_lt_of_le (Nat.lt_succ_iff.mp hj) with rfl | hlt
          · rw [hp] at h2; exact h2
          · have := h3 n hlt (by omega) hkw
            rw [hp] at this; cases this
    · simp only [hkw, if_false, ih]
      constructor
      · rintro ⟨j, hj, h1, h2, h3⟩
        refine ⟨j, by omega, h1, h2, fun j' hj1 hj2 hj3 => ?_⟩
        rcases Nat.eq_or_lt_of_le (Nat.lt_succ_iff.mp hj2) with rfl | hlt
        · exact absurd hj3 hkw
        · exact h3 j' hj1 hlt hj3
      · rintro ⟨j, hj, h1, h2, h3⟩
        rcases Nat.eq_or_lt_of_le (Nat.lt_succ_iff.mp hj) with rfl | hlt
        · exact absurd h1 hkw
        · exact ⟨j, hlt, h1, h2, fun j' hj1 hj2 hj3 => h3 j' hj1 (by omega) hj3⟩

theorem lastVal_eq_none_iff (ts : List Bytes) (kw : Bytes) (d : Nat) :
    ∀ n, lastVal ts kw d n = none ↔
      ∀ j, j < n → ts[j]? = some kw → (ts[j + d]?).bind parsed = none := by
  intro n
  induction n with
  | zero => simp [lastVal]
  | succ n ih =>
    simp only [lastVal]
    by_cases hkw : ts[n]? = some kw
    · simp only [hkw, if_true]
      rcases hp : (ts[n + d]?).bind parsed with _ | w
      · simp only [ih]
        constructor
        · intro h j hj hj1
          rcases Nat.eq_or_lt_of_le (Nat.lt_succ_iff.mp hj) with rfl | hlt
          · exact hp
          · exact h j hlt hj1
        · intro h j hj hj1
          exact h j (by omega) hj1
      · constructor
        · intro h; cases h
        · intro h
          have := h n (by omega) hkw
          rw [hp] at this; cases this
    · simp only [hkw, if_false, ih]
      constructor
      · intro h j hj hj1
        rcases Nat.eq_or_lt_of_le (Nat.lt_succ_iff.mp hj) with rfl | hlt
        · exact absurd hj1 hkw
        · exact h j hlt hj1
      · intro h j hj hj1
        exact h j (by omega) hj1

theorem bind_parsed_eq_some (o : Option Bytes) (v : Int) :
    o.bind parsed = some v ↔ ∃ t, o = some t ∧ ParseInt t = (v, none) := by
  cases o with
  | none => simp
  | some t => simp [parsed_eq_some]

theorem bind_parsed_eq_none (o : Option Bytes) :
    o.bind parsed = none ↔ ∀ t, o = some t → (ParseInt t).2 ≠ none := by
  cases o with
  | none => simp
  | some t => simp [parsed_eq_none]

theorem Gather_samples_iff (data e : Bytes) (fields : FieldMap) :
    Gather (readable data e) = .samples fields ↔
      ∃ n, ParseInt (TrimSpace e) = (n, none) ∧
        rangeLoop (Fields data) (Fields data) 0 (FieldMap.set [] "entropy_avail" n)
          = some fields := by
  simp only [Gather, readable, getProcStat]
  rcases hp : ParseInt (TrimSpace e) with ⟨n, _ | err⟩
  · rcases hl : rangeLoop (Fields data) (Fields data) 0 (FieldMap.set [] "entropy_avail" n)
      with _ | f
    · simp [hl]
    · simp [hl]
  · simp

theorem Gather_panic_iff (data e : Bytes) :
    Gather (readable data e) = .panic ↔
      (ParseInt (TrimSpace e)).2 = none ∧
        ∃ j t, (Fields data)[j]? = some t ∧ ¬ InRange (Fields data) j t := by
  simp only [Gather, readable, getProcStat]
  rcases hp : ParseInt (TrimSpace e) with ⟨n, _ | err⟩
  · have hs := rangeLoop_isSome (Fields data) (Fields data) 0
      (FieldMap.set [] "entropy_avail" n) rfl
    rcases hl : rangeLoop (Fields data) (Fields data) 0 (FieldMap.set [] "entropy_avail" n)
      with _ | f
    · simp only [hl, true_and]
      constructor
      · intro _
        by_contra hc
        push_neg at hc
        obtain ⟨m', hm'⟩ := hs.mpr (fun j t _ hj => hc j t hj)
        rw [hl] at hm'
        cases hm'
      · intro _; trivial
    · simp only [hl, true_and, false_iff, reduceCtorEq]
      rintro ⟨j, t, hj, hn⟩
      exact hn (hs.mp ⟨f, hl⟩ j t (Nat.zero_le j) hj)
  · simp

theorem Gather_complete (data e : Bytes) (n : Int)
    (hsec : ParseInt (TrimSpace e) = (n, none)) (hcomplete : Gather (readable data e) ≠ .panic) :
    ∃ fields, Gather (readable data e) = .samples fields := by
  simp only [Gather, readable, getProcStat, hsec] at hcomplete ⊢
  rcases hl : rangeLoop (Fields data) (Fields data) 0 (FieldMap.set [] "entropy_avail" n)
    with _ | f
  · simp [hl] at hcomplete
  · exact ⟨f, rfl⟩

theorem Gather_get?_row (data e : Bytes) (fields : FieldMap)
    (h : Gather (readable data e) = .samples fields)
    (kw : Bytes) (d : Nat) (key : String) (hrow : (kw, d, key) ∈ outputs) :
    FieldMap.get? fields key = lastVal (Fields data) kw d (Fields data).length := by
  obtain ⟨n, _, hl⟩ := (Gather_samples_iff data e fields).mp h
  refine rangeLoop_get? (Fields data) kw d key hrow (Fields data) 0 _ fields rfl
    (Nat.zero_le _) hl ?_
  simp only [outputs, List.mem_cons, Prod.mk.injEq, List.mem_singleton, List.not_mem_nil,
    or_false] at hrow
  rcases hrow with ⟨_, _, rfl⟩ | ⟨_, _, rfl⟩ | ⟨_, _, rfl⟩ | ⟨_, _, rfl⟩ | ⟨_, _, rfl⟩
    | ⟨_, _, rfl⟩ <;> simp [get?_set, FieldMap.get?, lastVal]

theorem Gather_get?_other (data e : Bytes) (fields : FieldMap) (n : Int)
    (h : Gather (readable data e) = .samples fields)
    (hsec : ParseInt (TrimSpace e) = (n, none))
    (k : String) (hk : ∀ kw d key, (kw, d, key) ∈ outputs → k ≠ key) :
    FieldMap.get? fields k = if k = "entropy_avail" then some n else none := by
  obtain ⟨n', hn', hl⟩ := (Gather_samples_iff data e fields).mp h
  rw [hsec] at hn'
  cases hn'
  rw [rangeLoop_other (Fields data) k hk (Fields data) 0 _ fields hl, get?_set]
  rfl

theorem entropy_not_row : ∀ kw d key, (kw, d, key) ∈ outputs → "entropy_avail" ≠ key := by
  intro kw d key hrow
  simp only [outputs, List.mem_cons, Prod.mk.injEq, List.mem_singleton, List.not_mem_nil,
    or_false] at hrow
  rcases hrow with ⟨_, _, rfl⟩ | ⟨_, _, rfl⟩ | ⟨_, _, rfl⟩ | ⟨_, _, rfl⟩ | ⟨_, _, rfl⟩
    | ⟨_, _, rfl⟩ <;> decide

theorem lastVal_congr (ts ts' : List Bytes) (kw : Bytes) (d : Nat)
    (h1 : ∀ j : Nat, ts'[j]? = some kw ↔ ts[j]? = some kw)
    (h2 : ∀ j : Nat, ts[j]? = some kw → ts'[j + d]? = ts[j + d]?) :
    ∀ n, lastVal ts' kw d n = lastVal ts kw d n := by
  intro n
  induction n with
  | zero => rfl
  | succ n ih =>
    simp only [lastVal]
    by_cases hkw : ts[n]? = some kw
    · rw [if_pos hkw, if_pos ((h1 n).mpr hkw), h2 n hkw, ih]
    · rw [if_neg hkw, if_neg (fun hc => hkw ((h1 n).mp hc)), ih]

theorem keyword_not_parsed (t : Bytes) (h : IsKeyword t) : (ParseInt t).2 ≠ none := by
  rcases h with rfl | rfl | rfl | rfl | rfl <;> decide

theorem row_keyword (kw : Bytes) (d : Nat) (key : String) (h : (kw, d, key) ∈ outputs) :
    IsKeyword kw ∧ (d = 1 ∨ (d = 2 ∧ kw = diskPages)) := by
  simp only [outputs, List.mem_cons, Prod.mk.injEq, List.mem_singleton, List.not_mem_nil,
    or_false] at h
  unfold IsKeyword
  rcases h with ⟨rfl, rfl, _⟩ | ⟨rfl, rfl, _⟩ | ⟨rfl, rfl, _⟩ | ⟨rfl, rfl, _⟩ | ⟨rfl, rfl, _⟩
    | ⟨rfl, rfl, _⟩ <;> simp

theorem row_key_unique (kw : Bytes) (key key' : String) (h : (kw, 1, key) ∈ outputs)
    (h' : (kw, 1, key') ∈ outputs) : key = key' := by
  obtain ⟨h1, h2, h3, h4, h5, h6, h7, h8, h9, h10⟩ := keywords_distinct
  simp only [outputs, List.mem_cons, Prod.mk.injEq, List.mem_singleton, List.not_mem_nil,
    or_false] at h h'
  rcases h with ⟨rfl, _, rfl⟩ | ⟨rfl, _, rfl⟩ | ⟨rfl, _, rfl⟩ | ⟨rfl, _, rfl⟩ | ⟨rfl, _, rfl⟩
    | ⟨rfl, hd, rfl⟩ <;>
  rcases h' with ⟨hk, _, rfl⟩ | ⟨hk, _, rfl⟩ | ⟨hk, _, rfl⟩ | ⟨hk, _, rfl⟩ | ⟨hk, _, rfl⟩
    | ⟨hk, hd', rfl⟩ <;>
  first
  | rfl
  | (exfalso; simp_all [Ne.symm])

theorem unparsed_of_bounded (ts : List Bytes) (kw : Bytes) (d lo : Nat)
    (h : ∀ j, j < ts.length → lo ≤ j → ts[j]? = some kw → (ts[j + d]?).bind parsed = none) :
    ∀ j t, lo ≤ j → ts[j]? = some kw → ts[j + d]? = some t → (ParseInt t).2 ≠ none := by
  intro j t hlo hj ht
  have hlt : j < ts.length := (List.getElem?_eq_some_iff.mp hj).1
  exact (bind_parsed_eq_none _).mp (h j hlt hlo hj) t ht

/-! ## Decimal tokens and `strconv.ParseInt` -/

theorem digitsValue_ge : ∀ (s : Bytes) (n x : Nat), digitsValue s n = some x → n ≤ x := by
  intro s
  induction s with
  | nil => intro n x h; simp [digitsValue] at h; omega
  | cons c s ih =>
    intro n x h
    simp only [digitsValue] at h
    split_ifs at h with hd
    have := ih _ _ h
    omega

theorem parseUintLoop_spec : ∀ (s : Bytes) (n x : Nat), n ≤ maxUint64 →
    digitsValue s n = some x →
    parseUintLoop s n = if x ≤ maxUint64 then (x, none) else (maxUint64, some .ErrRange) := by
  intro s
  induction s with
  | nil =>
    intro n x hn h
    simp only [digitsValue, Option.some.injEq] at h
    subst h
    simp [parseUintLoop, hn]
  | cons c s ih =>
    intro n x hn h
    simp only [digitsValue] at h
    split_ifs at h with hd
    have hge := digitsValue_ge _ _ _ h
    simp only [maxUint64] at hn hge ih ⊢
    norm_num at hn hge ih ⊢
    simp only [parseUintLoop, hd, maxUint64]
    norm_num
    have hd10 : ¬ 10 ≤ c.toNat - 48 := by omega
    rw [if_neg hd10]
    by_cases hcut : 1844674407370955162 ≤ n
    · rw [if_pos hcut, if_neg (by omega)]
    · rw [if_neg hcut]
      have e10 : n * 10 % 18446744073709551616 = n * 10 := Nat.mod_eq_of_lt (by omega)
      rw [e10]
      by_cases hov : 18446744073709551616 ≤ n * 10 + (c.toNat - 48)
      · have : (n * 10 + (c.toNat - 48)) % 18446744073709551616 < n * 10 := by omega
        rw [if_pos (Or.inl this), if_neg (by omega)]
      · have e1 : (n * 10 + (c.toNat - 48)) % 18446744073709551616 = n * 10 + (c.toNat - 48) :=
          Nat.mod_eq_of_lt (by omega)
        rw [e1, if_neg (by omega)]
        exact ih _ _ (by omega) h

theorem toInt64_of_lt (u : Nat) (h : u < 2 ^ 63) : toInt64 (u : Int) = u := by
  unfold toInt64
  norm_num at h ⊢
  omega

theorem toInt64_neg_of_le (u : Nat) (h : u ≤ 2 ^ 63) : toInt64 (-toInt64 (u : Int)) = -(u : Int) := by
  unfold toInt64
  norm_num at h ⊢
  omega

theorem ParseInt_of_ParseUint (c : UInt8) (rest : Bytes) (un : Nat) (err : Option NumError)
    (hP : ParseUint (if c.toNat = 0x2B then rest else if c.toNat = 0x2D then rest else c :: rest)
      = (un, err))
    (herr : err ≠ some .ErrSyntax) :
    ParseInt (c :: rest) =
      if ¬ c.toNat = 0x2D ∧ 2 ^ 63 ≤ un then (2 ^ 63 - 1, some .ErrRange)
      else if c.toNat = 0x2D ∧ 2 ^ 63 < un then (-2 ^ 63, some .ErrRange)
      else (if c.toNat = 0x2D then toInt64 (-toInt64 (un : Int)) else toInt64 (un : Int), none) := by
  simp only [ParseInt, hP, herr, if_false]
  by_cases hm : c.toNat = 0x2D <;> simp [hm]

theorem ParseUint_spec (s : Bytes) (u : Nat) (hs : s ≠ []) (hu : digitsValue s 0 = some u) :
    (u ≤ maxUint64 ∧ ParseUint s = (u, none))
      ∨ (maxUint64 < u ∧ ParseUint s = (maxUint64, some .ErrRange)) := by
  have h := parseUintLoop_spec s 0 u (Nat.zero_le _) hu
  simp only [ParseUint, hs, if_false, h]
  by_cases hmx : u ≤ maxUint64
  · exact Or.inl ⟨hmx, by rw [if_pos hmx]⟩
  · exact Or.inr ⟨by omega, by rw [if_neg hmx]⟩

theorem maxUint64_eq : maxUint64 = 18446744073709551615 := by
  unfold maxUint64
  norm_num

theorem ParseInt_plus (c : UInt8) (rest : Bytes) (u : Nat) (hplus : c.toNat = 0x2B)
    (hr : ¬ rest = []) (hu : digitsValue rest 0 = some u) :
    ParseInt (c :: rest) = if u < 2 ^ 63 then ((u : Int), none)
      else (2 ^ 63 - 1, some .ErrRange) := by
  have hneg : ¬ c.toNat = 0x2D := by omega
  rcases ParseUint_spec rest u hr hu with ⟨hmx, hP⟩ | ⟨hmx, hP⟩
  · rw [ParseInt_of_ParseUint c rest u none (by rw [if_pos hplus]; exact hP) (by simp)]
    by_cases h63 : u < 2 ^ 63
    · rw [if_neg (by omega), if_neg (by omega), if_neg hneg, if_pos h63, toInt64_of_lt u h63]
    · rw [if_pos ⟨hneg, by omega⟩, if_neg h63]
  · rw [ParseInt_of_ParseUint c rest maxUint64 (some .ErrRange)
      (by rw [if_pos hplus]; exact hP) (by simp)]
    rw [maxUint64_eq] at hmx ⊢
    rw [if_pos ⟨hneg, by norm_num⟩, if_neg (by norm_num; omega)]

theorem ParseInt_minus (c : UInt8) (rest : Bytes) (u : Nat) (hminus : c.toNat = 0x2D)
    (hr : ¬ rest = []) (hu : digitsValue rest 0 = some u) :
    ParseInt (c :: rest) = if u ≤ 2 ^ 63 then (-(u : Int), none)
      else (-2 ^ 63, some .ErrRange) := by
  have hplus : ¬ c.toNat = 0x2B := by omega
  rcases ParseUint_spec rest u hr hu with ⟨hmx, hP⟩ | ⟨hmx, hP⟩
  · rw [ParseInt_of_ParseUint c rest u none
      (by rw [if_neg hplus, if_pos hminus]; exact hP) (by simp)]
    by_cases h63 : u ≤ 2 ^ 63
    · rw [if_neg (fun h => h.1 hminus), if_neg (by omega), if_pos hminus, if_pos h63,
        toInt64_neg_of_le u h63]
    · rw [if_neg (fun h => h.1 hminus), if_pos ⟨hminus, by omega⟩, if_neg h63]
  · rw [ParseInt_of_ParseUint c rest maxUint64 (some .ErrRange)
      (by rw [if_neg hplus, if_pos hminus]; exact hP) (by simp)]
    rw [maxUint64_eq] at hmx ⊢
    rw [if_neg (fun h => h.1 hminus), if_pos ⟨hminus, by norm_num⟩, if_neg (by norm_num; omega)]

theorem ParseInt_unsigned (c : UInt8) (rest : Bytes) (u : Nat) (hplus : ¬ c.toNat = 0x2B)
    (hminus : ¬ c.toNat = 0x2D) (hu : digitsValue (c :: rest) 0 = some u) :
    ParseInt (c :: rest) = if u < 2 ^ 63 then ((u : Int), none)
      else (2 ^ 63 - 1, some .ErrRange) := by
  rcases ParseUint_spec (c :: rest) u (List.cons_ne_nil c rest) hu with ⟨hmx, hP⟩ | ⟨hmx, hP⟩
  · rw [ParseInt_of_ParseUint c rest u none
      (by rw [if_neg hplus, if_neg hminus]; exact hP) (by simp)]
    by_cases h63 : u < 2 ^ 63
    · rw [if_neg (by omega), if_neg (by omega), if_neg hminus, if_pos h63, toInt64_of_lt u h63]
    · rw [if_pos ⟨hminus, by omega⟩, if_neg h63]
  · rw [ParseInt_of_ParseUint c rest maxUint64 (some .ErrRange)
      (by rw [if_neg hplus, if_neg hminus]; exact hP) (by simp)]
    rw [maxUint64_eq] at hmx ⊢
    rw [if_pos ⟨hminus, by norm_num⟩, if_neg (by norm_num; omega)]

theorem parseUintLoop_cases : ∀ (s : Bytes) (n : Nat), n ≤ maxUint64 →
    (∃ u, parseUintLoop s n = (u, none) ∧ digitsValue s n = some u)
      ∨ parseUintLoop s n = (maxUint64, some .ErrRange)
      ∨ parseUintLoop s n = (0, some .ErrSyntax) := by
  intro s
  induction s with
  | nil =>
    intro n _
    exact Or.inl ⟨n, rfl, rfl⟩
  | cons c s ih =>
    intro n hn
    rw [maxUint64_eq] at hn
    simp only [parseUintLoop, digitsValue]
    by_cases hd : 0x30 ≤ c.toNat ∧ c.toNat ≤ 0x39
    · rw [if_pos hd, if_pos hd]
      have hd10 : ¬ 10 ≤ c.toNat - 0x30 := by omega
      rw [if_neg hd10]
      by_cases hcut : maxUint64 / 10 + 1 ≤ n
      · rw [if_pos hcut]
        exact Or.inr (Or.inl rfl)
      · rw [if_neg hcut]
        rw [maxUint64_eq] at hcut
        norm_num at hcut
        have e10 : n * 10 % 2 ^ 64 = n * 10 := Nat.mod_eq_of_lt (by norm_num; omega)
        rw [e10]
        by_cases hov : 2 ^ 64 ≤ n * 10 + (c.toNat - 0x30)
        · have : (n * 10 + (c.toNat - 0x30)) % 2 ^ 64 < n * 10 := by
            norm_num at hov ⊢
            omega
          rw [if_pos (Or.inl this)]
          exact Or.inr (Or.inl rfl)
        · have e1 : (n * 10 + (c.toNat - 0x30)) % 2 ^ 64 = n * 10 + (c.toNat - 0x30) :=
            Nat.mod_eq_of_lt (by omega)
          have hle : n * 10 + (c.toNat - 0x30) ≤ maxUint64 := by
            rw [maxUint64_eq]
            norm_num at hov ⊢
            omega
          rw [e1, if_neg (by omega)]
          exact ih _ hle
    · rw [if_neg hd]
      have hlow : (c.toNat ||| 0x20) < 256 := Nat.or_lt_two_pow (n := 8) c.toNat_lt (by norm_num)
      by_cases hl : 0x61 ≤ (c.toNat ||| 0x20) ∧ (c.toNat ||| 0x20) ≤ 0x7A
      · rw [if_pos hl]
        have h10 : 10 ≤ ((c.toNat ||| 0x20) - 0x61 + 10) % 256 := by omega
        rw [if_pos h10]
        exact Or.inr (Or.inr rfl)
      · rw [if_neg hl]
        exact Or.inr (Or.inr rfl)

theorem ParseInt_spec (t : Bytes) (x : Int) (h : decimalValue t = some x) :
    ParseInt t = if -2 ^ 63 ≤ x ∧ x ≤ 2 ^ 63 - 1 then (x, none)
      else (if x < 0 then -2 ^ 63 else 2 ^ 63 - 1, some .ErrRange) := by
  rcases t with _ | ⟨c, rest⟩
  · simp [decimalValue] at h
  · simp only [decimalValue] at h
    by_cases hplus : c.toNat = 0x2B
    · rw [if_pos hplus] at h
      by_cases hr : rest = []
      · simp [hr] at h
      · rw [if_neg hr] at h
        rcases hu : digitsValue rest 0 with _ | u
        · simp [hu] at h
        · simp only [hu, Option.map_some', Option.some.injEq, Int.ofNat_eq_coe] at h
          subst h
          rw [ParseInt_plus c rest u hplus hr hu]
          by_cases h63 : u < 2 ^ 63
          · rw [if_pos h63, if_pos (by norm_num at h63 ⊢; omega)]
          · rw [if_neg h63, if_neg (by norm_num at h63 ⊢; omega), if_neg (by omega)]
    · rw [if_neg hplus] at h
      by_cases hminus : c.toNat = 0x2D
      · rw [if_pos hminus] at h
        by_cases hr : rest = []
        · simp [hr] at h
        · rw [if_neg hr] at h
          rcases hu : digitsValue rest 0 with _ | u
          · simp [hu] at h
          · simp only [hu, Option.map_some', Option.some.injEq, Int.ofNat_eq_coe] at h
            subst h
            rw [ParseInt_minus c rest u hminus hr hu]
            by_cases h63 : u ≤ 2 ^ 63
            · rw [if_pos h63, if_pos (by norm_num at h63 ⊢; omega)]
            · rw [if_neg h63, if_neg (by norm_num at h63 ⊢; omega), if_pos (by omega)]
      · rw [if_neg hminus] at h
        rcases hu : digitsValue (c :: rest) 0 with _ | u
        · simp [hu] at h
        · simp only [hu, Option.map_some', Option.some.injEq, Int.ofNat_eq_coe] at h
          subst h
          rw [ParseInt_unsigned c rest u hplus hminus hu]
          by_cases h63 : u < 2 ^ 63
          · rw [if_pos h63, if_pos (by norm_num at h63 ⊢; omega)]
          · rw [if_neg h63, if_neg (by norm_num at h63 ⊢; omega), if_neg (by omega)]

theorem ParseInt_ok (t : Bytes) (v : Int) (h : ParseInt t = (v, none)) :
    decimalValue t = some v ∧ -2 ^ 63 ≤ v ∧ v ≤ 2 ^ 63 - 1 := by
  have key : ∀ x, decimalValue t = some x → decimalValue t = some v ∧ -2 ^ 63 ≤ v ∧ v ≤ 2 ^ 63 - 1 := by
    intro x hx
    have hs := ParseInt_spec t x hx
    rw [h] at hs
    by_cases hr : -2 ^ 63 ≤ x ∧ x ≤ 2 ^ 63 - 1
    · rw [if_pos hr] at hs
      cases hs
      exact ⟨hx, hr⟩
    · rw [if_neg hr] at hs
      cases hs
  rcases t with _ | ⟨c, rest⟩
  · simp [ParseInt] at h
  · have hmax : (0 : Nat) ≤ maxUint64 := Nat.zero_le _
    have hsyn : ∀ s1 : Bytes,
        s1 = (if c.toNat = 0x2B then rest else if c.toNat = 0x2D then rest else c :: rest) →
        (∃ u, s1 ≠ [] ∧ digitsValue s1 0 = some u) := by
      intro s1 hs1
      by_cases he : s1 = []
      · exfalso
        rw [hs1] at he
        simp [ParseInt, ParseUint, he] at h
      · rcases parseUintLoop_cases s1 0 hmax with ⟨u, _, hu⟩ | hrange | hsyn
        · exact ⟨u, he, hu⟩
        · exfalso
          have hP : ParseUint s1 = (maxUint64, some .ErrRange) := by
            simp only [ParseUint, he, if_false, hrange]
          rw [hs1] at hP
          rw [ParseInt_of_ParseUint c rest _ _ hP (by simp), maxUint64_eq] at h
          by_cases hm : c.toNat = 0x2D
          · rw [if_neg (fun hc => hc.1 hm), if_pos ⟨hm, by norm_num⟩] at h
            cases h
          · rw [if_pos ⟨hm, by norm_num⟩] at h
            cases h
        · exfalso
          have hP : ParseUint s1 = (0, some .ErrSyntax) := by
            simp only [ParseUint, he, if_false, hsyn]
          rw [hs1] at hP
          simp [ParseInt, hP] at h
    obtain ⟨u, hne, hu⟩ := hsyn _ rfl
    by_cases hplus : c.toNat = 0x2B
    · rw [if_pos hplus] at hne hu
      exact key u (by simp [decimalValue, hplus, hne, hu])
    · rw [if_neg hplus] at hne hu
      by_cases hminus : c.toNat = 0x2D
      · rw [if_pos hminus] at hne hu
        exact key (-(u : Int)) (by simp [decimalValue, hplus, hminus, hne, hu])
      · rw [if_neg hminus] at hne hu
        exact key u (by simp [decimalValue, hplus, hminus, hu])

theorem digitsValue_append (s r : Bytes) : ∀ n,
    digitsValue (s ++ r) n = (digitsValue s n).bind (digitsValue r) := by
  induction s with
  | nil => intro n; simp [digitsValue]
  | cons b s ih =>
    intro n
    simp only [List.cons_append, digitsValue]
    split_ifs
    · exact ih _
    · rfl

theorem exists_digits (k : Nat) : ∃ s : Bytes, s ≠ [] ∧ digitsValue s 0 = some k := by
  induction k using Nat.strong_induction_on with
  | _ k ih =>
    have hdig : ∀ d, d < 10 → ∀ m, digitsValue [UInt8.ofNat (0x30 + d)] m = some (m * 10 + d) := by
      intro d hd m
      have ht : (UInt8.ofNat (0x30 + d)).toNat = 0x30 + d :=
        UInt8.toNat_ofNat_of_lt (by simp [UInt8.size]; omega)
      simp only [digitsValue, ht]
      rw [if_pos (by omega)]
      congr 2
      omega
    by_cases hk : k < 10
    · exact ⟨[UInt8.ofNat (0x30 + k)], List.cons_ne_nil _ _, by rw [hdig k hk 0]; simp⟩
    · obtain ⟨s, _, hs⟩ := ih (k / 10) (by omega)
      refine ⟨s ++ [UInt8.ofNat (0x30 + k % 10)], by simp, ?_⟩
      rw [digitsValue_append, hs, Option.some_bind, hdig (k % 10) (by omega)]
      congr 1
      omega

theorem digitsValue_head (c : UInt8) (s : Bytes) (n k : Nat)
    (h : digitsValue (c :: s) n = some k) : 0x30 ≤ c.toNat ∧ c.toNat ≤ 0x39 := by
  simp only [digitsValue] at h
  by_contra hc
  rw [if_neg hc] at h
  cases h

theorem exists_decimal (n : Int) : ∃ t : Bytes, decimalValue t = some n := by
  rcases Int.le_total 0 n with hn | hn
  · obtain ⟨s, hne, hs⟩ := exists_digits n.toNat
    rcases s with _ | ⟨c, rest⟩
    · exact absurd rfl hne
    · have hc := digitsValue_head c rest 0 _ hs
      refine ⟨c :: rest, ?_⟩
      simp only [decimalValue]
      rw [if_neg (by omega), if_neg (by omega), hs]
      simp only [Option.map_some', Int.ofNat_eq_coe, Option.some.injEq]
      omega
  · obtain ⟨s, hne, hs⟩ := exists_digits (-n).toNat
    refine ⟨0x2D :: s, ?_⟩
    have h45 : (0x2D : UInt8).toNat = 0x2D := by decide
    simp only [decimalValue]
    rw [if_neg (by rw [h45]; decide), if_pos h45, if_neg hne, hs]
    simp only [Option.map_some', Int.ofNat_eq_coe, Option.some.injEq]
    omega

theorem outOfRange_of_bounded (ts : List Bytes) (kw : Bytes) (d : Nat)
    (h : ∀ j, j < ts.length → ts[j]? = some kw →
      ((ts[j + d]?).bind decimalValue).all (fun x => decide (x < -2 ^ 63 ∨ 2 ^ 63 - 1 < x))
        = true ∧ ((ts[j + d]?).bind decimalValue).isSome = true) :
    ∀ j t, ts[j]? = some kw → ts[j + d]? = some t →
      ∃ x, decimalValue t = some x ∧ (x < -2 ^ 63 ∨ 2 ^ 63 - 1 < x) := by
  intro j t hj ht
  have hlt : j < ts.length := (List.getElem?_eq_some_iff.mp hj).1
  obtain ⟨h1, h2⟩ := h j hlt hj
  rw [ht] at h1 h2
  simp only [Option.some_bind] at h1 h2
  rcases hx : decimalValue t with _ | x
  · rw [hx] at h2
    cases h2
  · rw [hx] at h1
    exact ⟨x, rfl, by simpa using h1⟩

theorem parsed_not_keyword (t : Bytes) (v : Int) (h : ParseInt t = (v, none)) :
    ¬ IsKeyword t := by
  intro hk
  have := keyword_not_parsed t hk
  rw [h] at this
  exact this rfl

/-! ## `bytes.Fields` and ASCII white space -/

theorem first_spec (p0 sz lo hi : Nat) (h : first p0 = some (sz, lo, hi)) :
    0x80 ≤ lo ∧ (sz = 2 ∨ sz = 3 ∨ sz = 4) := by
  unfold first at h
  split_ifs at h <;> simp only [Option.some.injEq, Prod.mk.injEq] at h <;>
    obtain ⟨rfl, rfl, rfl⟩ := h <;> simp

theorem inRange_ascii (lo hi : Nat) (a : UInt8) (ha : a.toNat < 0x80) (hlo : 0x80 ≤ lo) :
    inRange lo hi a = false := by
  unfold inRange
  simp only [Bool.and_eq_false_imp, decide_eq_true_eq, decide_eq_false_iff_not]
  intro h
  omega

theorem DecodeRune_append_ascii (c : UInt8) (p q : Bytes) (a : UInt8) (ha : a.toNat < 0x80) :
    DecodeRune (c :: p ++ a :: q) = DecodeRune (c :: p) := by
  have hc := inRange_ascii 0x80 0xBF a ha (le_refl _)
  rcases hf : first c.toNat with _ | ⟨sz, lo, hi⟩
  · rcases p with _ | ⟨b1, p⟩ <;> simp [DecodeRune, hf]
  · obtain ⟨hlo, hsz⟩ := first_spec _ _ _ _ hf
    have hl := inRange_ascii lo hi a ha hlo
    rcases p with _ | ⟨b1, _ | ⟨b2, _ | ⟨b3, t⟩⟩⟩
    · simp only [DecodeRune, hf, List.nil_append, List.cons_append, hl, List.length_cons,
        List.length_nil]
      rcases hsz with rfl | rfl | rfl <;> simp
    · simp only [DecodeRune, hf, List.nil_append, List.cons_append, hc, List.length_cons,
        List.length_nil]
      rcases hsz with rfl | rfl | rfl <;> simp
      all_goals (split_ifs <;> first | rfl | (exfalso; omega))
    · simp only [DecodeRune, hf, List.nil_append, List.cons_append, hc, List.length_cons,
        List.length_nil]
      rcases hsz with rfl | rfl | rfl <;> simp
      all_goals (split_ifs <;> first | rfl | (exfalso; omega))
    · simp only [DecodeRune, hf, List.nil_append, List.cons_append, List.length_cons,
        List.length_append]
      rcases hsz with rfl | rfl | rfl <;> simp
      all_goals (split_ifs <;> first | rfl | (exfalso; omega))

theorem IsSpace_ascii (a : UInt8) (ha : a.toNat < 0x80) : IsSpace a.toNat = asciiSpace a := by
  unfold IsSpace asciiSpace
  rw [if_pos (by omega)]
  have h1 : ¬ a.toNat = 0x85 := by omega
  have h2 : ¬ a.toNat = 0xA0 := by omega
  simp [h1, h2]

theorem asciiSpace_lt (a : UInt8) (h : asciiSpace a = true) : a.toNat < 0x80 := by
  unfold asciiSpace at h
  simp only [Bool.or_eq_true, decide_eq_true_eq] at h
  omega

theorem fieldsFrom_nil (start : Option Bytes) : fieldsFrom [] start = start.toList := by
  cases start <;> rfl

theorem fieldsFrom_cons (c : UInt8) (s : Bytes) (start : Option Bytes) :
    fieldsFrom (c :: s) start =
      if IsSpace (if RuneSelf ≤ c.toNat then DecodeRune (c :: s) else (c.toNat, 1)).1 then
        start.toList ++ fieldsFrom
          ((c :: s).drop (if RuneSelf ≤ c.toNat then DecodeRune (c :: s) else (c.toNat, 1)).2) none
      else
        fieldsFrom
          ((c :: s).drop (if RuneSelf ≤ c.toNat then DecodeRune (c :: s) else (c.toNat, 1)).2)
          (some (start.getD [] ++
            (c :: s).take (if RuneSelf ≤ c.toNat then DecodeRune (c :: s) else (c.toNat, 1)).2)) := by
  have hw : 1 ≤ (if RuneSelf ≤ c.toNat then DecodeRune (c :: s) else (c.toNat, 1)).2 := by
    split_ifs
    · exact (DecodeRune_width c s).1
    · exact le_refl _
  simp only [fieldsFrom, List.length_cons, fieldsFuncLoop]
  generalize (if RuneSelf ≤ c.toNat then DecodeRune (c :: s) else (c.toNat, 1)) = rs at hw
  have hd : ((c :: s).drop rs.2).length ≤ s.length := by
    simp only [List.length_drop, List.length_cons]; omega
  have e := fun st => fieldsFuncLoop_fuel IsSpace s.length ((c :: s).drop rs.2) st hd
  split_ifs
  · rcases start with _ | cur
    · simp only [e, Option.toList, List.nil_append]
    · simp only [e, Option.toList, List.singleton_append]
  · simp only [e]

theorem fieldsFrom_ascii (a : UInt8) (s : Bytes) (start : Option Bytes) (ha : a.toNat < 0x80) :
    fieldsFrom (a :: s) start =
      if asciiSpace a then start.toList ++ fieldsFrom s none
      else fieldsFrom s (some (start.getD [] ++ [a])) := by
  have hr : ¬ RuneSelf ≤ a.toNat := by unfold RuneSelf; omega
  rw [fieldsFrom_cons]
  simp only [if_neg hr, IsSpace_ascii a ha, List.drop_succ_cons, List.drop_zero,
    List.take_succ_cons, List.take_zero]

theorem fieldsFrom_append_ascii : ∀ (k : Nat) (p : Bytes) (start : Option Bytes), p.length ≤ k →
    ∃ (em : List Bytes) (st : Option Bytes), fieldsFrom p start = em ++ st.toList
      ∧ ∀ (a : UInt8) (q : Bytes), a.toNat < 0x80 →
          fieldsFrom (p ++ a :: q) start = em ++ fieldsFrom (a :: q) st := by
  intro k
  induction k with
  | zero =>
    intro p start hp
    have : p = [] := List.length_eq_zero.mp (Nat.le_zero.mp hp)
    subst this
    exact ⟨[], start, by rw [fieldsFrom_nil]; rfl, fun a q _ => rfl⟩
  | succ k ih =>
    intro p start hp
    rcases p with _ | ⟨c, p⟩
    · exact ⟨[], start, by rw [fieldsFrom_nil]; rfl, fun a q _ => rfl⟩
    · obtain ⟨rs, hrs⟩ : ∃ rs, rs = (if RuneSelf ≤ c.toNat then DecodeRune (c :: p)
          else (c.toNat, 1)) := ⟨_, rfl⟩
      have hw : 1 ≤ rs.2 ∧ rs.2 ≤ (c :: p).length := by
        rw [hrs]
        split_ifs
        · exact DecodeRune_width c p
        · exact ⟨le_refl _, by simp⟩
      have hdec : ∀ (a : UInt8) (q : Bytes), a.toNat < 0x80 →
          (if RuneSelf ≤ c.toNat then DecodeRune (c :: (p ++ a :: q)) else (c.toNat, 1)) = rs := by
        intro a q ha
        rw [hrs]
        split_ifs
        · exact DecodeRune_append_ascii c p q a ha
        · rfl
      have hlen : ((c :: p).drop rs.2).length ≤ k := by
        simp only [List.length_drop, List.length_cons] at hp ⊢
        omega
      have hdrop : ∀ (a : UInt8) (q : Bytes),
          (c :: (p ++ a :: q)).drop rs.2 = (c :: p).drop rs.2 ++ a :: q := by
        intro a q
        rw [← List.cons_append, List.drop_append_of_le_length hw.2]
      have htake : ∀ (a : UInt8) (q : Bytes),
          (c :: (p ++ a :: q)).take rs.2 = (c :: p).take rs.2 := by
        intro a q
        rw [← List.cons_append, List.take_append_of_le_length hw.2]
      have key1 : fieldsFrom (c :: p) start =
          if IsSpace rs.1 then start.toList ++ fieldsFrom ((c :: p).drop rs.2) none
          else fieldsFrom ((c :: p).drop rs.2)
            (some (start.getD [] ++ (c :: p).take rs.2)) := by
        rw [fieldsFrom_cons, ← hrs]
      have key2 : ∀ (a : UInt8) (q : Bytes), a.toNat < 0x80 →
          fieldsFrom (c :: p ++ a :: q) start =
            if IsSpace rs.1 then start.toList ++ fieldsFrom ((c :: p).drop rs.2 ++ a :: q) none
            else fieldsFrom ((c :: p).drop rs.2 ++ a :: q)
              (some (start.getD [] ++ (c :: p).take rs.2)) := by
        intro a q ha
        rw [List.cons_append, fieldsFrom_cons, hdec a q ha, hdrop, htake]
      by_cases hsp : IsSpace rs.1 = true
      · obtain ⟨em, st, h1, h2⟩ := ih ((c :: p).drop rs.2) none hlen
        refine ⟨start.toList ++ em, st, ?_, ?_⟩
        · rw [key1, if_pos hsp, h1, List.append_assoc]
        · intro a q ha
          rw [key2 a q ha, if_pos hsp, h2 a q ha, List.append_assoc]
      · obtain ⟨em, st, h1, h2⟩ := ih ((c :: p).drop rs.2)
          (some (start.getD [] ++ (c :: p).take rs.2)) hlen
        refine ⟨em, st, ?_, ?_⟩
        · rw [key1, if_neg hsp, h1]
        · intro a q ha
          rw [key2 a q ha, if_neg hsp, h2 a q ha]

theorem fieldsFrom_space (w : UInt8) (q : Bytes) (start : Option Bytes)
    (hw : asciiSpace w = true) :
    fieldsFrom (w :: q) start = start.toList ++ fieldsFrom q none := by
  rw [fieldsFrom_ascii w q start (asciiSpace_lt w hw), if_pos hw]

theorem fieldsFrom_spaces (ws : Bytes) (hws : ∀ b ∈ ws, asciiSpace b = true) (q : Bytes) :
    fieldsFrom (ws ++ q) none = fieldsFrom q none := by
  induction ws with
  | nil => rfl
  | cons w ws ih =>
    rw [List.cons_append, fieldsFrom_space w _ none (hws w (List.mem_cons_self w ws)),
      ih (fun b hb => hws b (List.mem_cons_of_mem w hb))]
    rfl

theorem fieldsASCII_eq_fieldsFrom : ∀ (s cur : Bytes), (∀ b ∈ s, b.toNat < 0x80) →
    fieldsASCII s cur = fieldsFrom s (if cur = [] then none else some cur) := by
  intro s
  induction s with
  | nil =>
    intro cur _
    rw [fieldsFrom_nil]
    simp only [fieldsASCII]
    split_ifs <;> rfl
  | cons c s ih =>
    intro cur hs
    have hc := hs c (List.mem_cons_self c s)
    have hs' : ∀ b ∈ s, b.toNat < 0x80 := fun b hb => hs b (List.mem_cons_of_mem c hb)
    rw [fieldsFrom_ascii c s _ hc]
    simp only [fieldsASCII]
    by_cases hsp : asciiSpace c = true
    · rw [if_pos hsp, if_pos hsp]
      have := ih [] hs'
      rw [if_pos rfl] at this
      by_cases hcur : cur = []
      · rw [if_pos hcur, if_pos hcur, this]
        rfl
      · rw [if_neg hcur, if_neg hcur, this]
        rfl
    · rw [if_neg hsp, if_neg hsp]
      have := ih (cur ++ [c]) hs'
      rw [if_neg (by simp)] at this
      rw [this]
      by_cases hcur : cur = []
      · rw [if_pos hcur, hcur]
        rfl
      · rw [if_neg hcur]
        rfl

theorem Fields_eq_fieldsFrom (s : Bytes) : Fields s = fieldsFrom s none := by
  unfold Fields
  by_cases h : s.any (fun c => decide (RuneSelf ≤ c.toNat)) = true
  · rw [if_pos h]
    rfl
  · rw [if_neg h]
    have hs : ∀ b ∈ s, b.toNat < 0x80 := by
      intro b hb
      by_contra hc
      apply h
      rw [List.any_eq_true]
      exact ⟨b, hb, by simp only [decide_eq_true_eq, RuneSelf]; omega⟩
    have := fieldsASCII_eq_fieldsFrom s [] hs
    rw [if_pos rfl] at this
    exact this

theorem Fields_replace (pre post : Bytes) (w w' : UInt8)
    (hw : asciiSpace w = true) (hw' : asciiSpace w' = true) :
    Fields (pre ++ w :: post) = Fields (pre ++ w' :: post) := by
  obtain ⟨em, st, _, h2⟩ := fieldsFrom_append_ascii pre.length pre none (le_refl _)
  rw [Fields_eq_fieldsFrom, Fields_eq_fieldsFrom, h2 w post (asciiSpace_lt w hw),
    h2 w' post (asciiSpace_lt w' hw'), fieldsFrom_space w post st hw,
    fieldsFrom_space w' post st hw']

theorem Fields_insert_after (pre post : Bytes) (w w' : UInt8)
    (hw : asciiSpace w = true) (hw' : asciiSpace w' = true) :
    Fields (pre ++ w :: w' :: post) = Fields (pre ++ w :: post) := by
  obtain ⟨em, st, _, h2⟩ := fieldsFrom_append_ascii pre.length pre none (le_refl _)
  rw [Fields_eq_fieldsFrom, Fields_eq_fieldsFrom, h2 w (w' :: post) (asciiSpace_lt w hw),
    h2 w post (asciiSpace_lt w hw), fieldsFrom_space w (w' :: post) st hw,
    fieldsFrom_space w post st hw, fieldsFrom_space w' post none hw']
  rfl

theorem Fields_insert_before (pre post : Bytes) (w w' : UInt8)
    (hw : asciiSpace w = true) (hw' : asciiSpace w' = true) :
    Fields (pre ++ w' :: w :: post) = Fields (pre ++ w :: post) := by
  rw [Fields_insert_after pre post w' w hw' hw]
  exact Fields_replace pre post w' w hw' hw

theorem Fields_leading (lead data : Bytes) (hl : ∀ b ∈ lead, asciiSpace b = true) :
    Fields (lead ++ data) = Fields data := by
  rw [Fields_eq_fieldsFrom, Fields_eq_fieldsFrom, fieldsFrom_spaces lead hl data]

theorem Fields_trailing (data trail : Bytes) (ht : ∀ b ∈ trail, asciiSpace b = true) :
    Fields (data ++ trail) = Fields data := by
  rcases trail with _ | ⟨w, q⟩
  · rw [List.append_nil]
  · obtain ⟨em, st, h1, h2⟩ := fieldsFrom_append_ascii data.length data none (le_refl _)
    have hw := ht w (List.mem_cons_self w q)
    have hq : fieldsFrom q none = [] := by
      have := fieldsFrom_spaces q (fun b hb => ht b (List.mem_cons_of_mem w hb)) []
      rw [List.append_nil] at this
      rw [this, fieldsFrom_nil]
      rfl
    rw [Fields_eq_fieldsFrom, Fields_eq_fieldsFrom, h2 w q (asciiSpace_lt w hw),
      fieldsFrom_space w q st hw, hq, List.append_nil, h1]

theorem Gather_congr_Fields (data data' e : Bytes) (h : Fields data = Fields data') :
    Gather (readable data e) = Gather (readable data' e) := by
  simp only [Gather, readable, getProcStat, h]

theorem KernelStats.getProcStat_calls (s : KernelStats) (fs : FileSystem) :
    s.getProcStat fs = Kernel.getProcStat (s.calls fs) := by
  unfold KernelStats.getProcStat Kernel.getProcStat KernelStats.calls
  rcases fs.Stat s.statFile with _ | (_ | _)
  · rcases fs.ReadFile s.statFile with err | data <;> rfl
  · rfl
  · rfl

theorem KernelStats.Gather_calls (s : KernelStats) (fs : FileSystem) :
    (s.Gather fs).1 = Kernel.Gather (s.calls fs) := by
  simp only [KernelStats.Gather, Kernel.Gather, ← KernelStats.getProcStat_calls]
  rcases s.getProcStat fs with err | data
  · rfl
  · simp only [KernelStats.calls]
    rcases fs.ReadFile s.entropyStatFile with err | entropyData
    · rfl
    · simp only
      rcases ParseInt (TrimSpace entropyData) with ⟨v, _ | err⟩
      · simp only
        rcases rangeLoop (Fields data) (Fields data) 0 (FieldMap.set [] "entropy_avail" v)
          with _ | f <;> rfl
      · rfl

theorem KernelStats.Gather_receiver (s : KernelStats) (fs : FileSystem) :
    (s.Gather fs).2 = s := by
  simp only [KernelStats.Gather]
  rcases s.getProcStat fs with err | data
  · rfl
  · simp only
    rcases fs.ReadFile s.entropyStatFile with err | entropyData
    · rfl
    · simp only
      rcases ParseInt (TrimSpace entropyData) with ⟨v, _ | err⟩
      · simp only
        rcases rangeLoop (Fields data) (Fields data) 0 (FieldMap.set [] "entropy_avail" v)
          with _ | f <;> rfl
      · rfl

theorem KernelStats.Gather_of_buffers (s : KernelStats) (fs : FileSystem) (data e : Bytes)
    (hd : s.getProcStat fs = .ok data) (he : fs.ReadFile s.entropyStatFile = .ok e) :
    (s.Gather fs).1 = Kernel.Gather (readable data e) := by
  simp only [KernelStats.Gather, hd, he, Kernel.Gather, readable, Kernel.getProcStat]
  rcases ParseInt (TrimSpace e) with ⟨v, _ | err⟩
  · simp only
    rcases rangeLoop (Fields data) (Fields data) 0 (FieldMap.set [] "entropy_avail" v)
      with _ | f <;> rfl
  · rfl

theorem KernelStats.getProcStat_ok (s : KernelStats) (fs : FileSystem) (data : Bytes)
    (hs : fs.Stat s.statFile = none) (hd : fs.ReadFile s.statFile = .ok data) :
    s.getProcStat fs = .ok data := by
  simp only [KernelStats.getProcStat, hs, hd]

theorem unparsed_others_of_bounded (ts : List Bytes) (kw : Bytes) (d i : Nat)
    (h : ∀ j, j < ts.length → j ≠ i → ts[j]? = some kw → (ts[j + d]?).bind parsed = none) :
    ∀ j t, j ≠ i → ts[j]? = some kw → ts[j + d]? = some t → (ParseInt t).2 ≠ none := by
  intro j t hji hj ht
  have hlt : j < ts.length := (List.getElem?_eq_some_iff.mp hj).1
  exact (bind_parsed_eq_none _).mp (h j hlt hji hj) t ht

theorem shapes_of_parsed (e : Bytes) (m n : Int) (t : Bytes)
    (hsec : ParseInt (TrimSpace e) = (m, none)) (ht : ParseInt t = (n, none)) :
    (∀ data, Fields data = [interrupts, contextSwitches, t] →
        ∃ fields, Gather (readable data e) = .samples fields
          ∧ FieldMap.get? fields "context_switches" = some n
          ∧ FieldMap.get? fields "interrupts" = none)
      ∧ (∀ data, Fields data = [diskPages, interrupts, t] →
        ∃ fields, Gather (readable data e) = .samples fields
          ∧ FieldMap.get? fields "disk_pages_out" = some n
          ∧ FieldMap.get? fields "interrupts" = some n
          ∧ FieldMap.get? fields "disk_pages_in" = none) := by
  obtain ⟨h1, h2, h3, h4, h5, h6, h7, h8, h9, h10⟩ := keywords_distinct
  have hnk := parsed_not_keyword t n ht
  have hp : parsed t = some n := (parsed_eq_some t n).mpr ht
  have hpc : parsed contextSwitches = none := by decide
  have hpi : parsed interrupts = none := by decide
  simp only [IsKeyword, not_or] at hnk
  obtain ⟨k1, k2, k3, k4, k5⟩ := hnk
  constructor
  · intro data hdata
    have hnp : Gather (readable data e) ≠ .panic := by
      intro hc
      obtain ⟨_, j, tk, hj, hbad⟩ := (Gather_panic_iff data e).mp hc
      rw [hdata] at hj hbad
      apply hbad
      rcases j with _ | _ | _ | j
      · simp at hj; subst hj; simp [InRange, IsKeyword,
          h1, h2, h3, h4, h5, h6, h7, h8, h9, h10, h1.symm, h2.symm, h3.symm, h4.symm,
          h5.symm, h6.symm, h7.symm, h8.symm, h9.symm, h10.symm]
      · simp at hj; subst hj; simp [InRange, IsKeyword,
          h1, h2, h3, h4, h5, h6, h7, h8, h9, h10, h1.symm, h2.symm, h3.symm, h4.symm,
          h5.symm, h6.symm, h7.symm, h8.symm, h9.symm, h10.symm]
      · simp at hj; subst hj; simp [InRange, IsKeyword, k1, k2, k3, k4, k5]
      · simp at hj
    obtain ⟨fields, hf⟩ := Gather_complete data e m hsec hnp
    refine ⟨fields, hf, ?_, ?_⟩
    · rw [Gather_get?_row data e fields hf contextSwitches 1 "context_switches"
        (by simp [outputs]), hdata]
      simp [lastVal, hp, k2,
          h1, h2, h3, h4, h5, h6, h7, h8, h9, h10, h1.symm, h2.symm, h3.symm, h4.symm,
          h5.symm, h6.symm, h7.symm, h8.symm, h9.symm, h10.symm]
    · rw [Gather_get?_row data e fields hf interrupts 1 "interrupts"
        (by simp [outputs]), hdata]
      simp [lastVal, hpc, k1,
          h1, h2, h3, h4, h5, h6, h7, h8, h9, h10, h1.symm, h2.symm, h3.symm, h4.symm,
          h5.symm, h6.symm, h7.symm, h8.symm, h9.symm, h10.symm]
  · intro data hdata
    have hnp : Gather (readable data e) ≠ .panic := by
      intro hc
      obtain ⟨_, j, tk, hj, hbad⟩ := (Gather_panic_iff data e).mp hc
      rw [hdata] at hj hbad
      apply hbad
      rcases j with _ | _ | _ | j
      · simp at hj; subst hj; simp [InRange, IsKeyword,
          h1, h2, h3, h4, h5, h6, h7, h8, h9, h10, h1.symm, h2.symm, h3.symm, h4.symm,
          h5.symm, h6.symm, h7.symm, h8.symm, h9.symm, h10.symm]
      · simp at hj; subst hj; simp [InRange, IsKeyword,
          h1, h2, h3, h4, h5, h6, h7, h8, h9, h10, h1.symm, h2.symm, h3.symm, h4.symm,
          h5.symm, h6.symm, h7.symm, h8.symm, h9.symm, h10.symm]
      · simp at hj; subst hj; simp [InRange, IsKeyword, k1, k2, k3, k4, k5]
      · simp at hj
    obtain ⟨fields, hf⟩ := Gather_complete data e m hsec hnp
    refine ⟨fields, hf, ?_, ?_, ?_⟩
    · rw [Gather_get?_row data e fields hf diskPages 2 "disk_pages_out"
        (by simp [outputs]), hdata]
      simp [lastVal, hp, k5,
          h1, h2, h3, h4, h5, h6, h7, h8, h9, h10, h1.symm, h2.symm, h3.symm, h4.symm,
          h5.symm, h6.symm, h7.symm, h8.symm, h9.symm, h10.symm]
    · rw [Gather_get?_row data e fields hf interrupts 1 "interrupts"
        (by simp [outputs]), hdata]
      simp [lastVal, hp, k1,
          h1, h2, h3, h4, h5, h6, h7, h8, h9, h10, h1.symm, h2.symm, h3.symm, h4.symm,
          h5.symm, h6.symm, h7.symm, h8.symm, h9.symm, h10.symm]
    · rw [Gather_get?_row data e fields hf diskPages 1 "disk_pages_in"
        (by simp [outputs]), hdata]
      simp [lastVal, hpi, k5,
          h1, h2, h3, h4, h5, h6, h7, h8, h9, h10, h1.symm, h2.symm, h3.symm, h4.symm,
          h5.symm, h6.symm, h7.symm, h8.symm, h9.symm, h10.symm]

/-! ## Claims -/

/-- C1, as stated, fails: in the primary buffer `intr 5 intr 7` the keyword `intr`
at token 0 is followed by `5`, which parses to 5, and the secondary buffer `64` is
valid, yet the field map Gather returns does not hold 5 under `interrupts` (it
holds 7, written at the later occurrence). -/
theorem C1_counterexample :
    ParseInt (TrimSpace (bytesOf "64")) = (64, none)
      ∧ (Fields (bytesOf "intr 5 intr 7"))[0]? = some interrupts
      ∧ (Fields (bytesOf "intr 5 intr 7"))[1]? = some (bytesOf "5")
      ∧ ParseInt (bytesOf "5") = (5, none)
      ∧ ¬ ∃ fields, Gather (readable (bytesOf "intr 5 intr 7") (bytesOf "64")) = .samples fields
            ∧ FieldMap.get? fields "interrupts" = some 5 := by
  refine ⟨by decide, by decide, by decide, by decide, ?_⟩
  rintro ⟨fields, hf, hg⟩
  have h : Gather (readable (bytesOf "intr 5 intr 7") (bytesOf "64"))
      = .samples [("interrupts", 7), ("entropy_avail", 64)] := by decide
  rw [h] at hf
  cases hf
  revert hg
  decide

/-- C1, amended: for every primary buffer on which extraction completes and every
secondary buffer that trims to a valid integer, if token `i` is a recognized
keyword (`intr`, `ctxt`, `processes`, `btime`, `page`) and token `i + 1` parses to
`v`, then Gather returns a field map that contains the keyword's output key
(`interrupts`, `context_switches`, `processes_forked`, `boot_time`,
`disk_pages_in`), and its value is exactly `v` when no later occurrence of the same
keyword is followed by a token that parses. -/
theorem C1_keyword_value_stored (data e : Bytes) (n : Int) (kw : Bytes) (key : String)
    (i : Nat) (t : Bytes) (v : Int)
    (hsec : ParseInt (TrimSpace e) = (n, none))
    (hcomplete : Gather (readable data e) ≠ .panic)
    (hrow : (kw, 1, key) ∈ outputs)
    (hi : (Fields data)[i]? = some kw) (ht : (Fields data)[i + 1]? = some t)
    (hv : ParseInt t = (v, none)) :
    ∃ fields, Gather (readable data e) = .samples fields
      ∧ (∃ w, FieldMap.get? fields key = some w)
      ∧ ((∀ j t', i < j → (Fields data)[j]? = some kw → (Fields data)[j + 1]? = some t' →
            (ParseInt t').2 ≠ none) → FieldMap.get? fields key = some v) := by
  obtain ⟨fields, hf⟩ := Gather_complete data e n hsec hcomplete
  have hrw := Gather_get?_row data e fields hf kw 1 key hrow
  have hilt : i < (Fields data).length := (List.getElem?_eq_some_iff.mp hi).1
  have hb : ((Fields data)[i + 1]?).bind parsed = some v :=
    (bind_parsed_eq_some _ v).mpr ⟨t, ht, hv⟩
  refine ⟨fields, hf, ?_, ?_⟩
  · rcases hlv : lastVal (Fields data) kw 1 (Fields data).length with _ | w
    · have := (lastVal_eq_none_iff (Fields data) kw 1 _).mp hlv i hilt hi
      rw [hb] at this
      cases this
    · exact ⟨w, by rw [hrw, hlv]⟩
  · intro hlast
    rw [hrw]
    refine (lastVal_eq_some_iff (Fields data) kw 1 v _).mpr ⟨i, hilt, hi, hb, ?_⟩
    intro j hij _ hj
    exact (bind_parsed_eq_none _).mpr (fun t' ht' => hlast j t' hij hj ht')

/-- Witness for C1: the primary buffer `cpu 1 intr 1500 ctxt 300` and the secondary
buffer `128`, with `intr` at token 2: the map holds `interrupts = 1500`. -/
theorem C1_keyword_value_stored_witness :
    ∃ fields, Gather (readable (bytesOf "cpu 1 intr 1500 ctxt 300") (bytesOf "128\n"))
        = .samples fields
      ∧ FieldMap.get? fields "interrupts" = some 1500 := by
  obtain ⟨fields, hf, _, hv⟩ :=
    C1_keyword_value_stored (bytesOf "cpu 1 intr 1500 ctxt 300") (bytesOf "128\n") 128
      interrupts "interrupts" 2 (bytesOf "1500") 1500 (by decide) (by decide) (by decide)
      (by decide) (by decide) (by decide)
  exact ⟨fields, hf, hv (fun j t' hj =>
    unparsed_of_bounded (Fields (bytesOf "cpu 1 intr 1500 ctxt 300")) interrupts 1 3
      (by decide) j t' hj)⟩

/-- C2, as stated, fails.  In the primary buffer `intr 5 intr abc` the keyword
`intr` at token 2 is followed by the non-numeric token `abc`, yet the field map
contains `interrupts`.  In `intr ctxt 5` the keyword `intr` is followed by the
non-numeric token `ctxt`; had that value been well-formed (`intr 7 5`), the key
`context_switches`, present with value 5, would be absent. -/
theorem C2_counterexample :
    ((Fields (bytesOf "intr 5 intr abc"))[2]? = some interrupts
      ∧ (Fields (bytesOf "intr 5 intr abc"))[3]? = some (bytesOf "abc")
      ∧ (ParseInt (bytesOf "abc")).2 ≠ none
      ∧ ¬ ∃ fields, Gather (readable (bytesOf "intr 5 intr abc") (bytesOf "64"))
              = .samples fields
            ∧ FieldMap.get? fields "interrupts" = none)
    ∧ ((Fields (bytesOf "intr ctxt 5"))[0]? = some interrupts
      ∧ (Fields (bytesOf "intr ctxt 5"))[1]? = some (bytesOf "ctxt")
      ∧ (ParseInt (bytesOf "ctxt")).2 ≠ none
      ∧ Fields (bytesOf "intr 7 5") = (Fields (bytesOf "intr ctxt 5")).set 1 (bytesOf "7")
      ∧ ParseInt (bytesOf "7") = (7, none)
      ∧ ¬ ∃ fields fields', Gather (readable (bytesOf "intr ctxt 5") (bytesOf "64"))
              = .samples fields
            ∧ Gather (readable (bytesOf "intr 7 5") (bytesOf "64")) = .samples fields'
            ∧ FieldMap.get? fields "context_switches"
                = FieldMap.get? fields' "context_switches") := by
  refine ⟨⟨by decide, by decide, by decide, ?_⟩,
    ⟨by decide, by decide, by decide, by decide, by decide, ?_⟩⟩
  · rintro ⟨fields, hf, hg⟩
    have h : Gather (readable (bytesOf "intr 5 intr abc") (bytesOf "64"))
        = .samples [("interrupts", 5), ("entropy_avail", 64)] := by decide
    rw [h] at hf
    cases hf
    revert hg
    decide
  · rintro ⟨fields, fields', hf, hf', hg⟩
    have h : Gather (readable (bytesOf "intr ctxt 5") (bytesOf "64"))
        = .samples [("context_switches", 5), ("entropy_avail", 64)] := by decide
    have h' : Gather (readable (bytesOf "intr 7 5") (bytesOf "64"))
        = .samples [("interrupts", 7), ("entropy_avail", 64)] := by decide
    rw [h] at hf
    rw [h'] at hf'
    cases hf
    cases hf'
    revert hg
    decide

/-- C2, amended: for every primary buffer on which extraction completes, with a
secondary buffer that trims to a valid integer, Gather reports no error and
returns a field map such that (a) if every occurrence of a recognized keyword is
followed by a token that does not parse, the map does not contain that keyword's
output key, and (b) if the token after one occurrence is not itself a keyword and
the token before that occurrence is not `page`, then with a well-formed value in
its place every other output key has the same presence and value. -/
theorem C2_unparsed_value_skipped (data e : Bytes) (n : Int) (kw : Bytes) (key : String)
    (hsec : ParseInt (TrimSpace e) = (n, none))
    (hcomplete : Gather (readable data e) ≠ .panic)
    (hrow : (kw, 1, key) ∈ outputs) :
    ∃ fields, Gather (readable data e) = .samples fields
      ∧ ((∀ j t, (Fields data)[j]? = some kw → (Fields data)[j + 1]? = some t →
            (ParseInt t).2 ≠ none) → FieldMap.get? fields key = none)
      ∧ (∀ (i : Nat) (bad good data' : Bytes),
          (Fields data)[i]? = some kw → (Fields data)[i + 1]? = some bad →
          ¬ IsKeyword bad → (∀ j, j + 1 = i → (Fields data)[j]? ≠ some diskPages) →
          (ParseInt good).2 = none → Fields data' = (Fields data).set (i + 1) good →
          ∃ fields', Gather (readable data' e) = .samples fields'
            ∧ ∀ k, k ≠ key → FieldMap.get? fields' k = FieldMap.get? fields k) := by
  obtain ⟨fields, hf⟩ := Gather_complete data e n hsec hcomplete
  refine ⟨fields, hf, ?_, ?_⟩
  · intro hall
    rw [Gather_get?_row data e fields hf kw 1 key hrow, lastVal_eq_none_iff]
    intro j _ hj
    exact (bind_parsed_eq_none _).mpr (fun t ht => hall j t hj ht)
  · intro i bad good data' hi hbad hnk hpage hgood hset
    have hgk : ¬ IsKeyword good := fun hc => keyword_not_parsed good hc hgood
    have hlt : i + 1 < (Fields data).length := (List.getElem?_eq_some_iff.mp hbad).1
    have hinr : ∀ j t, (Fields data)[j]? = some t → InRange (Fields data) j t := by
      intro j t hj
      by_contra hc
      exact hcomplete ((Gather_panic_iff data e).mpr ⟨by rw [hsec], j, t, hj, hc⟩)
    have hcomplete' : Gather (readable data' e) ≠ .panic := by
      intro hp
      obtain ⟨_, j, t, hj, hc⟩ := (Gather_panic_iff data' e).mp hp
      rw [hset] at hj hc
      apply hc
      by_cases hji : j = i + 1
      · subst hji
        rw [List.getElem?_set_self hlt] at hj
        cases hj
        exact ⟨fun hk => absurd hk hgk, fun hk => absurd (Or.inr (Or.inr (Or.inr (Or.inr hk)))) hgk⟩
      · rw [List.getElem?_set_ne (Ne.symm hji)] at hj
        have := hinr j t hj
        unfold InRange at this ⊢
        rw [List.length_set]
        exact this
    obtain ⟨fields', hf'⟩ := Gather_complete data' e n hsec hcomplete'
    refine ⟨fields', hf', ?_⟩
    intro k hk
    by_cases hex : ∃ kw' d', (kw', d', k) ∈ outputs
    · obtain ⟨kw', d', hrow'⟩ := hex
      rw [Gather_get?_row data' e fields' hf' kw' d' k hrow',
        Gather_get?_row data e fields hf kw' d' k hrow', hset, List.length_set]
      obtain ⟨hkw', hd'⟩ := row_keyword kw' d' k hrow'
      refine lastVal_congr (Fields data) ((Fields data).set (i + 1) good) kw' d' ?_ ?_ _
      · intro j
        by_cases hji : j = i + 1
        · subst hji
          rw [List.getElem?_set_self hlt, hbad]
          constructor
          · intro hc; cases hc; exact absurd hkw' hgk
          · intro hc; cases hc; exact absurd hkw' hnk
        · rw [List.getElem?_set_ne (Ne.symm hji)]
      · intro j hj
        have hne : i + 1 ≠ j + d' := by
          intro hc
          rcases hd' with rfl | ⟨rfl, rfl⟩
          · have : j = i := by omega
            subst this
            rw [hi] at hj
            cases hj
            exact hk (row_key_unique _ k key hrow' hrow)
          · exact hpage j (by omega) hj
        rw [List.getElem?_set_ne hne]
    · have hno : ∀ kw' d' key', (kw', d', key') ∈ outputs → k ≠ key' := by
        intro kw' d' key' hrow' hc
        subst hc
        exact hex ⟨kw', d', hrow'⟩
      rw [Gather_get?_other data' e fields' n hf' hsec k hno,
        Gather_get?_other data e fields n hf hsec k hno]

/-- Witness for C2: concrete scenario 2, `intr abc` followed by `ctxt 300`, with
the secondary buffer `64`: `interrupts` is absent, and with `intr 7` in place of
`intr abc` every other key reads the same. -/
theorem C2_unparsed_value_skipped_witness :
    ∃ fields, Gather (readable (bytesOf "intr abc\nctxt 300\n") (bytesOf "64")) = .samples fields
      ∧ FieldMap.get? fields "interrupts" = none
      ∧ ∃ fields', Gather (readable (bytesOf "intr 7\nctxt 300\n") (bytesOf "64"))
            = .samples fields'
          ∧ ∀ k, k ≠ "interrupts" → FieldMap.get? fields' k = FieldMap.get? fields k := by
  obtain ⟨fields, hf, ha, hb⟩ :=
    C2_unparsed_value_skipped (bytesOf "intr abc\nctxt 300\n") (bytesOf "64") 64 interrupts
      "interrupts" (by decide) (by decide) (by decide)
  exact ⟨fields, hf,
    ha (fun j t => unparsed_of_bounded (Fields (bytesOf "intr abc\nctxt 300\n")) interrupts 1 0
      (by decide) j t (Nat.zero_le j)),
    hb 0 (bytesOf "abc") (bytesOf "7") (bytesOf "intr 7\nctxt 300\n") (by decide) (by decide)
      (by decide) (fun j hj => absurd hj (Nat.succ_ne_zero j)) (by decide) (by decide)⟩

/-- C3, at the failing inputs: when the last token of the primary buffer is a
recognized keyword, or `page` is followed by a single token, the index expression
`dataFields[i+1]` or `dataFields[i+2]` is out of range and Gather panics; no field
map is returned. -/
theorem C3_keyword_at_end_panics :
    Gather (readable (bytesOf "intr") (bytesOf "128\n")) = .panic
      ∧ Gather (readable (bytesOf "ctxt 300\nintr") (bytesOf "128\n")) = .panic
      ∧ Gather (readable (bytesOf "intr 1500\npage 5") (bytesOf "128\n")) = .panic := by
  decide

/-- C4: for every secondary buffer that trims to a valid integer `n` and every
primary buffer on which extraction completes, Gather returns a field map whose
`entropy_avail` is exactly `n`. -/
theorem C4_entropy_avail (data e : Bytes) (n : Int)
    (hsec : ParseInt (TrimSpace e) = (n, none))
    (hcomplete : Gather (readable data e) ≠ .panic) :
    ∃ fields, Gather (readable data e) = .samples fields
      ∧ FieldMap.get? fields "entropy_avail" = some n := by
  obtain ⟨fields, hf⟩ := Gather_complete data e n hsec hcomplete
  refine ⟨fields, hf, ?_⟩
  rw [Gather_get?_other data e fields n hf hsec "entropy_avail" entropy_not_row]
  rfl

/-- Witness for C4: a primary buffer that itself mentions `entropy_avail`. -/
theorem C4_entropy_avail_witness :
    ∃ fields, Gather (readable (bytesOf "entropy_avail 7\nintr 1500\n") (bytesOf " \t128\r\n"))
        = .samples fields
      ∧ FieldMap.get? fields "entropy_avail" = some 128 :=
  C4_entropy_avail (bytesOf "entropy_avail 7\nintr 1500\n") (bytesOf " \t128\r\n") 128
    (by decide) (by decide)

/-- C5: for every primary buffer and every secondary buffer whose trimmed text
does not parse as a base-10 signed 64-bit integer, Gather logs the parse error and
returns early: whatever the conversion to samples, no sample is returned. -/
theorem C5_secondary_parse_failure (data e : Bytes)
    (hsec : (ParseInt (TrimSpace e)).2 ≠ none) :
    (∃ err, Gather (readable data e) = .logged (.failedToParseEntropyStatFile err))
      ∧ ∀ (σ : Type) (NewSamples : FieldMap → List σ),
          returned NewSamples (Gather (readable data e)) = some [] := by
  simp only [Gather, readable, getProcStat]
  rcases hp : ParseInt (TrimSpace e) with ⟨n, _ | err⟩
  · rw [hp] at hsec
    exact absurd rfl hsec
  · exact ⟨⟨err, rfl⟩, fun _ _ => rfl⟩

/-- Witness for C5: secondary buffers that are non-numeric, empty, hold internal
white space, or are out of the int64 range, each with a primary buffer that ends
in a keyword or holds parseable fields. -/
theorem C5_secondary_parse_failure_witness :
    ((∃ err, Gather (readable (bytesOf "ctxt 300\nintr") (bytesOf "not_a_number"))
          = .logged (.failedToParseEntropyStatFile err))
      ∧ ∀ (σ : Type) (NewSamples : FieldMap → List σ),
          returned NewSamples (Gather (readable (bytesOf "ctxt 300\nintr")
            (bytesOf "not_a_number"))) = some [])
    ∧ ((∃ err, Gather (readable (bytesOf "intr 1500\n") (bytesOf " \n"))
          = .logged (.failedToParseEntropyStatFile err))
      ∧ ∀ (σ : Type) (NewSamples : FieldMap → List σ),
          returned NewSamples (Gather (readable (bytesOf "intr 1500\n") (bytesOf " \n")))
            = some [])
    ∧ ((∃ err, Gather (readable (bytesOf "intr 1500\n") (bytesOf "12 34\n"))
          = .logged (.failedToParseEntropyStatFile err))
      ∧ ∀ (σ : Type) (NewSamples : FieldMap → List σ),
          returned NewSamples (Gather (readable (bytesOf "intr 1500\n") (bytesOf "12 34\n")))
            = some [])
    ∧ ((∃ err, Gather (readable (bytesOf "intr 1500\n") (bytesOf "9223372036854775808\n"))
          = .logged (.failedToParseEntropyStatFile err))
      ∧ ∀ (σ : Type) (NewSamples : FieldMap → List σ),
          returned NewSamples (Gather (readable (bytesOf "intr 1500\n")
            (bytesOf "9223372036854775808\n"))) = some []) :=
  ⟨C5_secondary_parse_failure (bytesOf "ctxt 300\nintr") (bytesOf "not_a_number") (by decide),
   C5_secondary_parse_failure (bytesOf "intr 1500\n") (bytesOf " \n") (by decide),
   C5_secondary_parse_failure (bytesOf "intr 1500\n") (bytesOf "12 34\n") (by decide),
   C5_secondary_parse_failure (bytesOf "intr 1500\n") (bytesOf "9223372036854775808\n")
     (by decide)⟩

/-- C6: if the primary read fails (`os.Stat` or `os.ReadFile` of the stat file
returns an error), or it succeeds and the read of the entropy file fails, Gather
returns no sample, whatever the other buffer holds; and Gather returns a non-empty
list of samples only if both reads succeeded. -/
theorem C6_read_failure_no_samples {σ : Type} (NewSamples : FieldMap → List σ) (h : Host) :
    ((h.statStatFile ≠ none ∨ (∃ err, h.readStatFile = .error err)) →
        returned NewSamples (Gather h) = some [])
      ∧ (∀ data err, getProcStat h = .ok data → h.readEntropyStatFile = .error err →
          returned NewSamples (Gather h) = some [])
      ∧ (∀ l, returned NewSamples (Gather h) = some l → l ≠ [] →
          ∃ data e, h = readable data e) := by
  obtain ⟨st, rd, re⟩ := h
  refine ⟨?_, ?_, ?_⟩
  · rintro (hst | ⟨err, hrd⟩)
    · rcases st with _ | (_ | _)
      · exact absurd rfl hst
      · rfl
      · rfl
    · simp only at hrd
      subst hrd
      rcases st with _ | (_ | _) <;> rfl
  · intro data err hd hre
    simp only at hre
    subst hre
    simp only [Gather, hd]
    rfl
  · intro l hl hne
    rcases st with _ | (_ | _)
    · rcases rd with err | data
      · simp [Gather, getProcStat, returned] at hl
        exact absurd hl hne
      · rcases re with err | e
        · simp [Gather, getProcStat, returned] at hl
          exact absurd hl hne
        · exact ⟨data, e, rfl⟩
    · simp [Gather, getProcStat, returned] at hl
      exact absurd hl hne
    · simp [Gather, getProcStat, returned] at hl
      exact absurd hl hne

/-- Witness for C6: the stat file does not exist while the entropy file is
readable; the stat file is readable and holds fields while the entropy file is
not; and a cycle that returns one sample per field. -/
theorem C6_read_failure_no_samples_witness :
    returned (fun fields => fields)
        (Gather { statStatFile := some .notExist, readStatFile := .error .notExist,
                  readEntropyStatFile := .ok (bytesOf "128\n") }) = some []
      ∧ returned (fun fields => fields)
        (Gather { statStatFile := none, readStatFile := .ok (bytesOf "intr 1500\n"),
                  readEntropyStatFile := .error .other }) = some []
      ∧ ∃ data e, readable (bytesOf "intr 1500\n") (bytesOf "128\n") = readable data e :=
  ⟨(C6_read_failure_no_samples (fun fields => fields)
      { statStatFile := some .notExist, readStatFile := .error .notExist,
        readEntropyStatFile := .ok (bytesOf "128\n") }).1 (Or.inl (by decide)),
   (C6_read_failure_no_samples (fun fields => fields)
      { statStatFile := none, readStatFile := .ok (bytesOf "intr 1500\n"),
        readEntropyStatFile := .error .other }).2.1 (bytesOf "intr 1500\n") .other rfl rfl,
   (C6_read_failure_no_samples (fun fields => fields)
      (readable (bytesOf "intr 1500\n") (bytesOf "128\n"))).2.2
      [("interrupts", 1500), ("entropy_avail", 128)] (by decide) (by decide)⟩

/-- C7: on the primary buffer of concrete scenario 1 and the secondary buffer
`128\n`, Gather returns a field map that holds exactly the seven listed keys with
the listed values: every key reads as it does in the listed map. -/
theorem C7_scenario_one :
    ∃ fields,
      Gather (readable
          (bytesOf "cpu 10 20\nintr 1500\nctxt 300\nprocesses 42\nbtime 1600000000\npage 5 7\n")
          (bytesOf "128\n")) = .samples fields
      ∧ ∀ k, FieldMap.get? fields k
          = FieldMap.get? [("interrupts", 1500), ("context_switches", 300),
              ("processes_forked", 42), ("boot_time", 1600000000), ("disk_pages_in", 5),
              ("disk_pages_out", 7), ("entropy_avail", 128)] k := by
  refine ⟨[("disk_pages_out", 7), ("disk_pages_in", 5), ("boot_time", 1600000000),
    ("processes_forked", 42), ("context_switches", 300), ("interrupts", 1500),
    ("entropy_avail", 128)], by decide, fun k => ?_⟩
  by_cases h1 : k = "interrupts"
  · subst h1; decide
  by_cases h2 : k = "context_switches"
  · subst h2; decide
  by_cases h3 : k = "processes_forked"
  · subst h3; decide
  by_cases h4 : k = "boot_time"
  · subst h4; decide
  by_cases h5 : k = "disk_pages_in"
  · subst h5; decide
  by_cases h6 : k = "disk_pages_out"
  · subst h6; decide
  by_cases h7 : k = "entropy_avail"
  · subst h7; decide
  simp [FieldMap.get?, h1, h2, h3, h4, h5, h6, h7]

/-- C8: whenever Gather returns a field map, every key of the map is one of the
seven fixed names, and a key other than `entropy_avail` is present with value `v`
only if some token is exactly that key's keyword and the token at the key's offset
after it (1, or 2 for `disk_pages_out`) parses to `v`. -/
theorem C8_fields_sound (data e : Bytes) (fields : FieldMap)
    (h : Gather (readable data e) = .samples fields) :
    (∀ k v, FieldMap.get? fields k = some v →
        k ∈ ["entropy_avail", "interrupts", "context_switches", "processes_forked",
          "boot_time", "disk_pages_in", "disk_pages_out"])
      ∧ (∀ kw d key v, (kw, d, key) ∈ outputs → FieldMap.get? fields key = some v →
          ∃ j t, (Fields data)[j]? = some kw ∧ (Fields data)[j + d]? = some t
            ∧ ParseInt t = (v, none)) := by
  constructor
  · intro k v hk
    by_contra hmem
    simp only [List.mem_cons, List.mem_singleton, List.not_mem_nil, or_false, not_or] at hmem
    obtain ⟨g0, g1, g2, g3, g4, g5, g6⟩ := hmem
    obtain ⟨n, hn, _⟩ := (Gather_samples_iff data e fields).mp h
    have hrow : ∀ kw d key, (kw, d, key) ∈ outputs → k ≠ key := by
      intro kw d key hrow
      simp only [outputs, List.mem_cons, Prod.mk.injEq, List.mem_singleton, List.not_mem_nil,
        or_false] at hrow
      rcases hrow with ⟨_, _, rfl⟩ | ⟨_, _, rfl⟩ | ⟨_, _, rfl⟩ | ⟨_, _, rfl⟩ | ⟨_, _, rfl⟩
        | ⟨_, _, rfl⟩ <;> assumption
    rw [Gather_get?_other data e fields n h hn k hrow, if_neg g0] at hk
    cases hk
  · intro kw d key v hrow hk
    rw [Gather_get?_row data e fields h kw d key hrow] at hk
    obtain ⟨j, _, hj, hb, _⟩ := (lastVal_eq_some_iff (Fields data) kw d v _).mp hk
    obtain ⟨t, ht, hv⟩ := (bind_parsed_eq_some _ v).mp hb
    exact ⟨j, t, hj, ht, hv⟩

/-- Witness for C8: concrete scenario 2, where `intr` is followed by `abc`, with an
upper-case `CTXT` that matches no keyword. -/
theorem C8_fields_sound_witness :
    Gather (readable (bytesOf "intr abc\nctxt 300\nCTXT 9\n") (bytesOf "64"))
        = .samples [("context_switches", 300), ("entropy_avail", 64)]
      ∧ ((∀ k v, FieldMap.get? [("context_switches", 300), ("entropy_avail", 64)] k = some v →
          k ∈ ["entropy_avail", "interrupts", "context_switches", "processes_forked",
            "boot_time", "disk_pages_in", "disk_pages_out"])
        ∧ (∀ kw d key v, (kw, d, key) ∈ outputs →
            FieldMap.get? [("context_switches", 300), ("entropy_avail", 64)] key = some v →
            ∃ j t, (Fields (bytesOf "intr abc\nctxt 300\nCTXT 9\n"))[j]? = some kw
              ∧ (Fields (bytesOf "intr abc\nctxt 300\nCTXT 9\n"))[j + d]? = some t
              ∧ ParseInt t = (v, none))) :=
  ⟨by decide,
   C8_fields_sound (bytesOf "intr abc\nctxt 300\nCTXT 9\n") (bytesOf "64")
     [("context_switches", 300), ("entropy_avail", 64)] (by decide)⟩

/-- C9: whenever Gather returns a field map, the value stored under an output key
is the one parsed at the last occurrence of its keyword whose value token parses:
if token `j` is the keyword, the token at the key's offset after it parses to `v`,
and no later occurrence of the keyword has a value token that parses, the key
holds exactly `v`. -/
theorem C9_last_write_wins (data e : Bytes) (fields : FieldMap)
    (h : Gather (readable data e) = .samples fields)
    (kw : Bytes) (d : Nat) (key : String) (hrow : (kw, d, key) ∈ outputs)
    (j : Nat) (t : Bytes) (v : Int)
    (hj : (Fields data)[j]? = some kw) (ht : (Fields data)[j + d]? = some t)
    (hv : ParseInt t = (v, none))
    (hlast : ∀ j' t', j < j' → (Fields data)[j']? = some kw →
      (Fields data)[j' + d]? = some t' → (ParseInt t').2 ≠ none) :
    FieldMap.get? fields key = some v := by
  rw [Gather_get?_row data e fields h kw d key hrow]
  have hjlt : j < (Fields data).length := (List.getElem?_eq_some_iff.mp hj).1
  refine (lastVal_eq_some_iff (Fields data) kw d v _).mpr
    ⟨j, hjlt, hj, (bind_parsed_eq_some _ v).mpr ⟨t, ht, hv⟩, ?_⟩
  intro j' hjj' _ hj'
  exact (bind_parsed_eq_none _).mpr (fun t' ht' => hlast j' t' hjj' hj' ht')

/-- Witness for C9: `intr` occurs three times, followed by 5, by 7 and by `x`; the
value stored is 7, neither 5 nor the sum 12. -/
theorem C9_last_write_wins_witness :
    Gather (readable (bytesOf "intr 5\nintr 7\nintr x\n") (bytesOf "64"))
        = .samples [("interrupts", 7), ("entropy_avail", 64)]
      ∧ FieldMap.get? [("interrupts", 7), ("entropy_avail", 64)] "interrupts" = some 7 :=
  ⟨by decide,
   C9_last_write_wins (bytesOf "intr 5\nintr 7\nintr x\n") (bytesOf "64")
     [("interrupts", 7), ("entropy_avail", 64)] (by decide) interrupts 1 "interrupts"
     (by decide) 2 (bytesOf "7") 7 (by decide) (by decide) (by decide)
     (fun j' t' hj' =>
       unparsed_of_bounded (Fields (bytesOf "intr 5\nintr 7\nintr x\n")) interrupts 1 3
         (by decide) j' t' hj')⟩

/-- C10, as stated, fails: in the primary buffer `page x 7 page 1 2` the keyword
`page` at token 0 is followed by `x`, which does not parse, and by `7`, which
parses to 7, yet the field map does not hold 7 under `disk_pages_out` with
`disk_pages_in` omitted (the later `page 1 2` wrote 1 and 2). -/
theorem C10_counterexample :
    (Fields (bytesOf "page x 7 page 1 2"))[0]? = some diskPages
      ∧ (Fields (bytesOf "page x 7 page 1 2"))[1]? = some (bytesOf "x")
      ∧ (Fields (bytesOf "page x 7 page 1 2"))[2]? = some (bytesOf "7")
      ∧ (ParseInt (bytesOf "x")).2 ≠ none
      ∧ ParseInt (bytesOf "7") = (7, none)
      ∧ Gather (readable (bytesOf "page x 7 page 1 2") (bytesOf "64"))
          = .samples [("disk_pages_out", 2), ("disk_pages_in", 1), ("entropy_avail", 64)]
      ∧ ¬ ∃ fields, Gather (readable (bytesOf "page x 7 page 1 2") (bytesOf "64"))
              = .samples fields
            ∧ FieldMap.get? fields "disk_pages_out" = some 7
            ∧ FieldMap.get? fields "disk_pages_in" = none := by
  refine ⟨by decide, by decide, by decide, by decide, by decide, by decide, ?_⟩
  rintro ⟨fields, hf, hg, _⟩
  have h : Gather (readable (bytesOf "page x 7 page 1 2") (bytesOf "64"))
      = .samples [("disk_pages_out", 2), ("disk_pages_in", 1), ("entropy_avail", 64)] := by
    decide
  rw [h] at hf
  cases hf
  revert hg
  decide

/-- C10, amended: for every primary buffer on which extraction completes (with a
secondary buffer that trims to a valid integer) and which holds the keyword `page`
at token `i` followed by two tokens `t1` and `t2`, `disk_pages_in` is decided by
the first value tokens alone and `disk_pages_out` by the second value tokens
alone.  If `t2` parses and no later occurrence of `page` has a second value token
that parses, `disk_pages_out` is present with the value of `t2`, whether `t1`
parses or not; if `t1` does not parse and no other occurrence of `page` has a
first value token that parses, `disk_pages_in` is omitted, whether `t2` parses or
not; and the same with the two keys exchanged. -/
theorem C10_page_fields_independent (data e : Bytes) (n : Int) (i : Nat) (t1 t2 : Bytes)
    (hsec : ParseInt (TrimSpace e) = (n, none))
    (hcomplete : Gather (readable data e) ≠ .panic)
    (hi : (Fields data)[i]? = some diskPages)
    (h1 : (Fields data)[i + 1]? = some t1) (h2 : (Fields data)[i + 2]? = some t2) :
    ∃ fields, Gather (readable data e) = .samples fields
      ∧ (∀ v, ParseInt t1 = (v, none) →
          (∀ j t', i < j → (Fields data)[j]? = some diskPages →
            (Fields data)[j + 1]? = some t' → (ParseInt t').2 ≠ none) →
          FieldMap.get? fields "disk_pages_in" = some v)
      ∧ ((ParseInt t1).2 ≠ none →
          (∀ j t', j ≠ i → (Fields data)[j]? = some diskPages →
            (Fields data)[j + 1]? = some t' → (ParseInt t').2 ≠ none) →
          FieldMap.get? fields "disk_pages_in" = none)
      ∧ (∀ v, ParseInt t2 = (v, none) →
          (∀ j t', i < j → (Fields data)[j]? = some diskPages →
            (Fields data)[j + 2]? = some t' → (ParseInt t').2 ≠ none) →
          FieldMap.get? fields "disk_pages_out" = some v)
      ∧ ((ParseInt t2).2 ≠ none →
          (∀ j t', j ≠ i → (Fields data)[j]? = some diskPages →
            (Fields data)[j + 2]? = some t' → (ParseInt t').2 ≠ none) →
          FieldMap.get? fields "disk_pages_out" = none) := by
  obtain ⟨fields, hf⟩ := Gather_complete data e n hsec hcomplete
  have hilt : i < (Fields data).length := (List.getElem?_eq_some_iff.mp hi).1
  have hsome : ∀ (d : Nat) (key : String) (t : Bytes), (diskPages, d, key) ∈ outputs →
      (Fields data)[i + d]? = some t → ∀ v, ParseInt t = (v, none) →
      (∀ j t', i < j → (Fields data)[j]? = some diskPages →
        (Fields data)[j + d]? = some t' → (ParseInt t').2 ≠ none) →
      FieldMap.get? fields key = some v := by
    intro d key t hrow ht v hv hlater
    rw [Gather_get?_row data e fields hf diskPages d key hrow]
    refine (lastVal_eq_some_iff (Fields data) diskPages d v _).mpr
      ⟨i, hilt, hi, (bind_parsed_eq_some _ v).mpr ⟨t, ht, hv⟩, ?_⟩
    intro j' hlt _ hj'
    exact (bind_parsed_eq_none _).mpr (fun t' ht' => hlater j' t' hlt hj' ht')
  have hnone : ∀ (d : Nat) (key : String) (t : Bytes), (diskPages, d, key) ∈ outputs →
      (Fields data)[i + d]? = some t → (ParseInt t).2 ≠ none →
      (∀ j t', j ≠ i → (Fields data)[j]? = some diskPages →
        (Fields data)[j + d]? = some t' → (ParseInt t').2 ≠ none) →
      FieldMap.get? fields key = none := by
    intro d key t hrow ht hv hother
    rw [Gather_get?_row data e fields hf diskPages d key hrow, lastVal_eq_none_iff]
    intro j _ hj
    refine (bind_parsed_eq_none _).mpr (fun t' ht' => ?_)
    by_cases hji : j = i
    · subst hji
      rw [ht] at ht'
      cases ht'
      exact hv
    · exact hother j t' hji hj ht'
  exact ⟨fields, hf, hsome 1 "disk_pages_in" t1 (by simp [outputs]) h1,
    hnone 1 "disk_pages_in" t1 (by simp [outputs]) h1,
    hsome 2 "disk_pages_out" t2 (by simp [outputs]) h2,
    hnone 2 "disk_pages_out" t2 (by simp [outputs]) h2⟩

/-- Witness for C10: in `page x 7 page y z` the first `page` has a first value
token that does not parse and a second one that does, and the later `page` has no
value token that parses: `disk_pages_out` is 7 and `disk_pages_in` is absent. -/
theorem C10_page_fields_independent_witness :
    ∃ fields, Gather (readable (bytesOf "page x 7 page y z\n") (bytesOf "64")) = .samples fields
      ∧ FieldMap.get? fields "disk_pages_out" = some 7
      ∧ FieldMap.get? fields "disk_pages_in" = none := by
  obtain ⟨fields, hf, _, hin, hout, _⟩ :=
    C10_page_fields_independent (bytesOf "page x 7 page y z\n") (bytesOf "64") 64 0
      (bytesOf "x") (bytesOf "7") (by decide) (by decide) (by decide) (by decide) (by decide)
  exact ⟨fields, hf,
    hout 7 (by decide) (fun j t' hj =>
      unparsed_of_bounded (Fields (bytesOf "page x 7 page y z\n")) diskPages 2 1
        (by decide) j t' hj),
    hin (by decide)
      (unparsed_others_of_bounded (Fields (bytesOf "page x 7 page y z\n")) diskPages 1 0
        (by decide))⟩

/-- C11: a cycle leaves its receiver as it found it, and two cycles that are given
byte-identical primary buffers and byte-identical secondary buffers end the same
way, whatever the receivers (paths, interval, print flag) and whatever else the
file systems hold: the outcomes are equal, so either both return the same field map
or both fail; this holds also for a second cycle run on the receiver the first
cycle left; and the outcome is the one determined by the two buffers alone. -/
theorem C11_deterministic (s1 s2 : KernelStats) (fs1 fs2 fs3 : FileSystem) (data e : Bytes)
    (hs1 : fs1.Stat s1.statFile = none) (hd1 : fs1.ReadFile s1.statFile = .ok data)
    (he1 : fs1.ReadFile s1.entropyStatFile = .ok e)
    (hs2 : fs2.Stat s2.statFile = none) (hd2 : fs2.ReadFile s2.statFile = .ok data)
    (he2 : fs2.ReadFile s2.entropyStatFile = .ok e)
    (hs3 : fs3.Stat s1.statFile = none) (hd3 : fs3.ReadFile s1.statFile = .ok data)
    (he3 : fs3.ReadFile s1.entropyStatFile = .ok e) :
    (s1.Gather fs1).1 = (s2.Gather fs2).1
      ∧ ((∃ fields, (s1.Gather fs1).1 = .samples fields)
          ↔ ∃ fields, (s2.Gather fs2).1 = .samples fields)
      ∧ (s1.Gather fs1).2 = s1
      ∧ ((s1.Gather fs1).2.Gather fs3).1 = (s1.Gather fs1).1
      ∧ (s1.Gather fs1).1 = Gather (readable data e) := by
  have e1 := KernelStats.Gather_of_buffers s1 fs1 data e
    (KernelStats.getProcStat_ok s1 fs1 data hs1 hd1) he1
  have e2 := KernelStats.Gather_of_buffers s2 fs2 data e
    (KernelStats.getProcStat_ok s2 fs2 data hs2 hd2) he2
  have e3 := KernelStats.Gather_of_buffers s1 fs3 data e
    (KernelStats.getProcStat_ok s1 fs3 data hs3 hd3) he3
  have r1 := KernelStats.Gather_receiver s1 fs1
  refine ⟨by rw [e1, e2], by rw [e1, e2], r1, by rw [r1, e3, e1], e1⟩

/-- Witness for C11: two samplers with different paths and settings, on file
systems that differ elsewhere, read the same two buffers. -/
theorem C11_deterministic_witness :
    (KernelStats.Gather
        { statFile := "/proc/stat", entropyStatFile := "/proc/sys/kernel/random/entropy_avail",
          PrintConfigs := false, Interval := 15 }
        { Stat := fun _ => none,
          ReadFile := fun p => if p = "/proc/stat" then .ok (bytesOf "intr 1500\nctxt abc\n")
            else .ok (bytesOf "128\n") }).1
      = (KernelStats.Gather
        { statFile := "/tmp/stat", entropyStatFile := "/tmp/entropy",
          PrintConfigs := true, Interval := 60 }
        { Stat := fun p => if p = "/tmp/stat" then none else some .notExist,
          ReadFile := fun p => if p = "/tmp/stat" then .ok (bytesOf "intr 1500\nctxt abc\n")
            else if p = "/tmp/entropy" then .ok (bytesOf "128\n") else .error .notExist }).1
      ∧ (KernelStats.Gather
        { statFile := "/proc/stat", entropyStatFile := "/proc/sys/kernel/random/entropy_avail",
          PrintConfigs := false, Interval := 15 }
        { Stat := fun _ => none,
          ReadFile := fun p => if p = "/proc/stat" then .ok (bytesOf "intr 1500\nctxt abc\n")
            else .ok (bytesOf "128\n") }).1
      = .samples [("interrupts", 1500), ("entropy_avail", 128)] :=
  ⟨(C11_deterministic
      { statFile := "/proc/stat", entropyStatFile := "/proc/sys/kernel/random/entropy_avail",
        PrintConfigs := false, Interval := 15 }
      { statFile := "/tmp/stat", entropyStatFile := "/tmp/entropy",
        PrintConfigs := true, Interval := 60 }
      { Stat := fun _ => none,
        ReadFile := fun p => if p = "/proc/stat" then .ok (bytesOf "intr 1500\nctxt abc\n")
          else .ok (bytesOf "128\n") }
      { Stat := fun p => if p = "/tmp/stat" then none else some .notExist,
        ReadFile := fun p => if p = "/tmp/stat" then .ok (bytesOf "intr 1500\nctxt abc\n")
          else if p = "/tmp/entropy" then .ok (bytesOf "128\n") else .error .notExist }
      { Stat := fun _ => none,
        ReadFile := fun p => if p = "/proc/stat" then .ok (bytesOf "intr 1500\nctxt abc\n")
          else .ok (bytesOf "128\n") }
      (bytesOf "intr 1500\nctxt abc\n") (bytesOf "128\n") rfl rfl rfl rfl rfl rfl rfl rfl rfl).1,
   by decide⟩

/-- C12, as stated, fails: in the primary buffer `intr 5 intr 9223372036854775808`
the keyword `intr` at token 2 is followed by a well-formed decimal digit string
whose value `2^63` is out of range, yet the field map contains `interrupts` (with
the value 5 written at the earlier occurrence). -/
theorem C12_counterexample :
    (Fields (bytesOf "intr 5 intr 9223372036854775808"))[2]? = some interrupts
      ∧ (Fields (bytesOf "intr 5 intr 9223372036854775808"))[3]?
          = some (bytesOf "9223372036854775808")
      ∧ decimalValue (bytesOf "9223372036854775808") = some 9223372036854775808
      ∧ (2 : Int) ^ 63 - 1 < 9223372036854775808
      ∧ ¬ ∃ fields, Gather (readable (bytesOf "intr 5 intr 9223372036854775808") (bytesOf "64"))
              = .samples fields
            ∧ FieldMap.get? fields "interrupts" = none := by
  refine ⟨by decide, by decide, by decide, by norm_num, ?_⟩
  rintro ⟨fields, hf, hg⟩
  have h : Gather (readable (bytesOf "intr 5 intr 9223372036854775808") (bytesOf "64"))
      = .samples [("interrupts", 5), ("entropy_avail", 64)] := by decide
  rw [h] at hf
  cases hf
  revert hg
  decide

/-- C12, amended: whenever Gather returns a field map, (a) a value stored under an
output key is never wrapped around or saturated: it is the mathematical value of a
well-formed, optionally signed decimal token in `[-2^63, 2^63-1]` that stands at
the key's offset after an occurrence of its keyword; (b) the key is omitted when
every occurrence of its keyword has an out-of-range decimal token as value; and
(c) when the value token of an occurrence is an in-range decimal and no later
occurrence has a value token that parses, the stored value equals its mathematical
value. -/
theorem C12_range_handling (data e : Bytes) (fields : FieldMap)
    (h : Gather (readable data e) = .samples fields)
    (kw : Bytes) (d : Nat) (key : String) (hrow : (kw, d, key) ∈ outputs) :
    (∀ v, FieldMap.get? fields key = some v →
        ∃ j t, (Fields data)[j]? = some kw ∧ (Fields data)[j + d]? = some t
          ∧ decimalValue t = some v ∧ -2 ^ 63 ≤ v ∧ v ≤ 2 ^ 63 - 1)
      ∧ ((∀ j t, (Fields data)[j]? = some kw → (Fields data)[j + d]? = some t →
            ∃ x, decimalValue t = some x ∧ (x < -2 ^ 63 ∨ 2 ^ 63 - 1 < x)) →
          FieldMap.get? fields key = none)
      ∧ (∀ j t x, (Fields data)[j]? = some kw → (Fields data)[j + d]? = some t →
          decimalValue t = some x → -2 ^ 63 ≤ x → x ≤ 2 ^ 63 - 1 →
          (∀ j' t', j < j' → (Fields data)[j']? = some kw →
            (Fields data)[j' + d]? = some t' → (ParseInt t').2 ≠ none) →
          FieldMap.get? fields key = some x) := by
  have hrw := Gather_get?_row data e fields h kw d key hrow
  refine ⟨?_, ?_, ?_⟩
  · intro v hv
    rw [hrw] at hv
    obtain ⟨j, _, hj, hb, _⟩ := (lastVal_eq_some_iff (Fields data) kw d v _).mp hv
    obtain ⟨t, ht, hp⟩ := (bind_parsed_eq_some _ v).mp hb
    exact ⟨j, t, hj, ht, ParseInt_ok t v hp⟩
  · intro hall
    rw [hrw, lastVal_eq_none_iff]
    intro j _ hj
    refine (bind_parsed_eq_none _).mpr (fun t ht => ?_)
    obtain ⟨x, hx, hout⟩ := hall j t hj ht
    rw [ParseInt_spec t x hx, if_neg (by omega)]
    simp
  · intro j t x hj ht hx h1 h2 hlast
    rw [hrw]
    have hjlt : j < (Fields data).length := (List.getElem?_eq_some_iff.mp hj).1
    have hp : ParseInt t = (x, none) := by rw [ParseInt_spec t x hx, if_pos ⟨h1, h2⟩]
    refine (lastVal_eq_some_iff (Fields data) kw d x _).mpr
      ⟨j, hjlt, hj, (bind_parsed_eq_some _ x).mpr ⟨t, ht, hp⟩, ?_⟩
    intro j' hjj' _ hj'
    exact (bind_parsed_eq_none _).mpr (fun t' ht' => hlast j' t' hjj' hj' ht')

/-- Witness for C12: `intr` is followed by `2^63`, one above the largest int64,
and `ctxt` by `-2^63`, the smallest: `interrupts` is omitted and
`context_switches` holds `-2^63`. -/
theorem C12_range_handling_witness :
    Gather (readable (bytesOf "intr 9223372036854775808\nctxt -9223372036854775808\n")
        (bytesOf "64"))
      = .samples [("context_switches", -9223372036854775808), ("entropy_avail", 64)]
    ∧ FieldMap.get? [("context_switches", -9223372036854775808), ("entropy_avail", 64)]
        "interrupts" = none
    ∧ FieldMap.get? [("context_switches", -9223372036854775808), ("entropy_avail", 64)]
        "context_switches" = some (-9223372036854775808) :=
  ⟨by decide,
   (C12_range_handling (bytesOf "intr 9223372036854775808\nctxt -9223372036854775808\n")
      (bytesOf "64") [("context_switches", -9223372036854775808), ("entropy_avail", 64)]
      (by decide) interrupts 1 "interrupts" (by decide)).2.1
      (outOfRange_of_bounded _ interrupts 1 (by decide)),
   (C12_range_handling (bytesOf "intr 9223372036854775808\nctxt -9223372036854775808\n")
      (bytesOf "64") [("context_switches", -9223372036854775808), ("entropy_avail", 64)]
      (by decide) contextSwitches 1 "context_switches" (by decide)).2.2
      2 (bytesOf "-9223372036854775808") (-9223372036854775808) (by decide) (by decide)
      (by decide) (by norm_num) (by norm_num)
      (fun j' t' hj' => unparsed_of_bounded
        (Fields (bytesOf "intr 9223372036854775808\nctxt -9223372036854775808\n"))
        contextSwitches 1 3 (by decide) j' t' hj')⟩

/-- C13, as stated, fails: `n = 2^63` is an integer, written as the decimal token
`9223372036854775808`, and the token sequence `[intr, ctxt, n]` does not yield
`context_switches = n`: the token is out of the int64 range, the write is skipped
and the map holds no `context_switches` key. -/
theorem C13_counterexample :
    Fields (bytesOf "intr ctxt 9223372036854775808")
        = [interrupts, contextSwitches, bytesOf "9223372036854775808"]
      ∧ decimalValue (bytesOf "9223372036854775808") = some 9223372036854775808
      ∧ Gather (readable (bytesOf "intr ctxt 9223372036854775808") (bytesOf "64"))
          = .samples [("entropy_avail", 64)]
      ∧ ¬ ∃ fields, Gather (readable (bytesOf "intr ctxt 9223372036854775808") (bytesOf "64"))
              = .samples fields
            ∧ FieldMap.get? fields "context_switches" = some 9223372036854775808 := by
  refine ⟨by decide, by decide, by decide, ?_⟩
  rintro ⟨fields, hf, hg⟩
  have h : Gather (readable (bytesOf "intr ctxt 9223372036854775808") (bytesOf "64"))
      = .samples [("entropy_avail", 64)] := by decide
  rw [h] at hf
  cases hf
  revert hg
  decide

/-- C13, amended: keyword matching is independent per token position; the walk
visits every token index and never skips a token read as the value of a preceding
keyword.  Whenever Gather returns a field map: if token `i` is a keyword, the token
at one of its value offsets is itself a keyword, and that keyword's own value token
parses to `v` with no later occurrence of it having a value token that parses, then
its output key holds `v`.  And for every integer `n` in `[-2^63, 2^63-1]` there is
a decimal token that parses to `n`, and for every token `t` that parses to `n` (the
secondary buffer being valid) the token sequence `[intr, ctxt, t]` yields
`context_switches = n` and no `interrupts` key, and `[page, intr, t]` yields
`disk_pages_out = n` and `interrupts = n` with no `disk_pages_in` key. -/
theorem C13_every_token_tested (e : Bytes) (m : Int)
    (hsec : ParseInt (TrimSpace e) = (m, none)) :
    (∀ (data : Bytes) (fields : FieldMap), Gather (readable data e) = .samples fields →
        ∀ (kw1 : Bytes) (d1 : Nat) (key1 : String) (kw2 : Bytes) (d2 : Nat) (key2 : String),
          (kw1, d1, key1) ∈ outputs → (kw2, d2, key2) ∈ outputs →
          ∀ (i : Nat) (t : Bytes) (v : Int),
            (Fields data)[i]? = some kw1 → (Fields data)[i + d1]? = some kw2 →
            (Fields data)[i + d1 + d2]? = some t → ParseInt t = (v, none) →
            (∀ j t', i + d1 < j → (Fields data)[j]? = some kw2 →
              (Fields data)[j + d2]? = some t' → (ParseInt t').2 ≠ none) →
            FieldMap.get? fields key2 = some v)
      ∧ ∀ n : Int, -2 ^ 63 ≤ n → n ≤ 2 ^ 63 - 1 →
          (∃ t, decimalValue t = some n ∧ ParseInt t = (n, none))
            ∧ ∀ t, ParseInt t = (n, none) →
                (∀ data, Fields data = [interrupts, contextSwitches, t] →
                  ∃ fields, Gather (readable data e) = .samples fields
                    ∧ FieldMap.get? fields "context_switches" = some n
                    ∧ FieldMap.get? fields "interrupts" = none)
                ∧ (∀ data, Fields data = [diskPages, interrupts, t] →
                  ∃ fields, Gather (readable data e) = .samples fields
                    ∧ FieldMap.get? fields "disk_pages_out" = some n
                    ∧ FieldMap.get? fields "interrupts" = some n
                    ∧ FieldMap.get? fields "disk_pages_in" = none) := by
  constructor
  · intro data fields hf kw1 d1 key1 kw2 d2 key2 _ hrow2 i t v _ hkw2 ht hv hlater
    rw [Gather_get?_row data e fields hf kw2 d2 key2 hrow2]
    have hlt : i + d1 < (Fields data).length := (List.getElem?_eq_some_iff.mp hkw2).1
    refine (lastVal_eq_some_iff (Fields data) kw2 d2 v _).mpr
      ⟨i + d1, hlt, hkw2, (bind_parsed_eq_some _ v).mpr ⟨t, ht, hv⟩, ?_⟩
    intro j' hjj' _ hj'
    exact (bind_parsed_eq_none _).mpr (fun t' ht' => hlater j' t' hjj' hj' ht')
  · intro n hlo hhi
    constructor
    · obtain ⟨t, ht⟩ := exists_decimal n
      exact ⟨t, ht, by rw [ParseInt_spec t n ht, if_pos ⟨hlo, hhi⟩]⟩
    · intro t ht
      exact shapes_of_parsed e m n t hsec ht

/-- Witness for C13: in `page intr 1500` the token `intr` is read as the first
value of `page` and still tested as a keyword; and the two token sequences of the
claim for `n = 1500`. -/
theorem C13_every_token_tested_witness :
    (Gather (readable (bytesOf "page intr 1500") (bytesOf "64"))
        = .samples [("interrupts", 1500), ("disk_pages_out", 1500), ("entropy_avail", 64)]
      ∧ FieldMap.get? [("interrupts", 1500), ("disk_pages_out", 1500), ("entropy_avail", 64)]
          "interrupts" = some 1500)
      ∧ (∃ fields, Gather (readable (bytesOf "intr ctxt 1500") (bytesOf "64")) = .samples fields
        ∧ FieldMap.get? fields "context_switches" = some 1500
        ∧ FieldMap.get? fields "interrupts" = none)
      ∧ (∃ fields, Gather (readable (bytesOf "page intr 1500") (bytesOf "64")) = .samples fields
        ∧ FieldMap.get? fields "disk_pages_out" = some 1500
        ∧ FieldMap.get? fields "interrupts" = some 1500
        ∧ FieldMap.get? fields "disk_pages_in" = none) :=
  ⟨⟨by decide,
    (C13_every_token_tested (bytesOf "64") 64 (by decide)).1 (bytesOf "page intr 1500")
      [("interrupts", 1500), ("disk_pages_out", 1500), ("entropy_avail", 64)] (by decide)
      diskPages 1 "disk_pages_in" interrupts 1 "interrupts" (by decide) (by decide)
      0 (bytesOf "1500") 1500 (by decide) (by decide) (by decide) (by decide)
      (fun j t' hj => unparsed_of_bounded (Fields (bytesOf "page intr 1500")) interrupts 1 2
        (by decide) j t' hj)⟩,
   (((C13_every_token_tested (bytesOf "64") 64 (by decide)).2 1500 (by norm_num)
      (by norm_num)).2 (bytesOf "1500") (by decide)).1 (bytesOf "intr ctxt 1500") (by decide),
   (((C13_every_token_tested (bytesOf "64") 64 (by decide)).2 1500 (by norm_num)
      (by norm_num)).2 (bytesOf "1500") (by decide)).2 (bytesOf "page intr 1500") (by decide)⟩

/-- C14, as stated, fails: the primary buffer `cpu intr 5` is a single line on
which `intr` is the second token, yet it produces the output field
`interrupts = 5`. -/
theorem C14_counterexample :
    Fields (bytesOf "cpu intr 5") = [bytesOf "cpu", interrupts, bytesOf "5"]
      ∧ (10 : UInt8) ∉ bytesOf "cpu intr 5"
      ∧ Gather (readable (bytesOf "cpu intr 5") (bytesOf "64"))
          = .samples [("interrupts", 5), ("entropy_avail", 64)]
      ∧ ¬ ∃ fields, Gather (readable (bytesOf "cpu intr 5") (bytesOf "64")) = .samples fields
            ∧ FieldMap.get? fields "interrupts" = none := by
  refine ⟨by decide, by decide, by decide, ?_⟩
  rintro ⟨fields, hf, hg⟩
  have h : Gather (readable (bytesOf "cpu intr 5") (bytesOf "64"))
      = .samples [("interrupts", 5), ("entropy_avail", 64)] := by decide
  rw [h] at hf
  cases hf
  revert hg
  decide

/-- C14, amended: recognized keywords are matched case-sensitively and exactly,
against every token of the buffer whatever its place on its line: for every
primary buffer on which extraction completes (with a secondary buffer that trims
to a valid integer), an output field is present exactly when some token, at any
index, equals its keyword byte for byte and the token at the field's offset after
it parses. -/
theorem C14_keyword_at_any_token (data e : Bytes) (n : Int)
    (hsec : ParseInt (TrimSpace e) = (n, none))
    (hcomplete : Gather (readable data e) ≠ .panic)
    (kw : Bytes) (d : Nat) (key : String) (hrow : (kw, d, key) ∈ outputs) :
    ∃ fields, Gather (readable data e) = .samples fields
      ∧ ((∃ v, FieldMap.get? fields key = some v) ↔
          ∃ j t v, (Fields data)[j]? = some kw ∧ (Fields data)[j + d]? = some t
            ∧ ParseInt t = (v, none)) := by
  obtain ⟨fields, hf⟩ := Gather_complete data e n hsec hcomplete
  refine ⟨fields, hf, ?_⟩
  rw [Gather_get?_row data e fields hf kw d key hrow]
  constructor
  · rintro ⟨v, hv⟩
    obtain ⟨j, _, hj, hb, _⟩ := (lastVal_eq_some_iff (Fields data) kw d v _).mp hv
    obtain ⟨t, ht, hp⟩ := (bind_parsed_eq_some _ v).mp hb
    exact ⟨j, t, v, hj, ht, hp⟩
  · rintro ⟨j, t, v, hj, ht, hp⟩
    rcases hlv : lastVal (Fields data) kw d (Fields data).length with _ | w
    · have hjlt : j < (Fields data).length := (List.getElem?_eq_some_iff.mp hj).1
      have := (lastVal_eq_none_iff (Fields data) kw d _).mp hlv j hjlt hj
      rw [(bind_parsed_eq_some _ v).mpr ⟨t, ht, hp⟩] at this
      cases this
    · exact ⟨w, rfl⟩

/-- Witness for C14: in `cpu intr 5\nINTR 6 Page 1 2\n` the keyword `intr` is the
second token of its line and produces `interrupts`; `INTR` and `Page` match no
keyword. -/
theorem C14_keyword_at_any_token_witness :
    Gather (readable (bytesOf "cpu intr 5\nINTR 6 Page 1 2\n") (bytesOf "64"))
        = .samples [("interrupts", 5), ("entropy_avail", 64)]
      ∧ ∃ fields, Gather (readable (bytesOf "cpu intr 5\nINTR 6 Page 1 2\n") (bytesOf "64"))
          = .samples fields
        ∧ ((∃ v, FieldMap.get? fields "interrupts" = some v) ↔
            ∃ j t v, (Fields (bytesOf "cpu intr 5\nINTR 6 Page 1 2\n"))[j]? = some interrupts
              ∧ (Fields (bytesOf "cpu intr 5\nINTR 6 Page 1 2\n"))[j + 1]? = some t
              ∧ ParseInt t = (v, none)) :=
  ⟨by decide,
   C14_keyword_at_any_token (bytesOf "cpu intr 5\nINTR 6 Page 1 2\n") (bytesOf "64") 64
     (by decide) (by decide) interrupts 1 "interrupts" (by decide)⟩

/-- C15: the outcome of Gather depends on the primary buffer only through its
token sequence `Fields data`; hence replacing an ASCII white space byte (space,
tab, newline, carriage return, vertical tab, form feed) by another one,
lengthening a run of such bytes by one more, before or after, and adding leading
and trailing runs of such bytes leave the outcome, and so the field map,
unchanged. -/
theorem C15_layout_invariance (e : Bytes) :
    (∀ data data', Fields data = Fields data' →
        Gather (readable data e) = Gather (readable data' e))
      ∧ (∀ (pre post : Bytes) (w w' : UInt8), asciiSpace w = true → asciiSpace w' = true →
          Gather (readable (pre ++ w :: post) e) = Gather (readable (pre ++ w' :: post) e)
            ∧ Gather (readable (pre ++ w :: w' :: post) e)
                = Gather (readable (pre ++ w :: post) e)
            ∧ Gather (readable (pre ++ w' :: w :: post) e)
                = Gather (readable (pre ++ w :: post) e))
      ∧ (∀ (data lead trail : Bytes), (∀ b ∈ lead, asciiSpace b = true) →
          (∀ b ∈ trail, asciiSpace b = true) →
          Gather (readable (lead ++ data ++ trail) e) = Gather (readable data e)) := by
  refine ⟨fun data data' h => Gather_congr_Fields data data' e h, ?_, ?_⟩
  · intro pre post w w' hw hw'
    exact ⟨Gather_congr_Fields _ _ e (Fields_replace pre post w w' hw hw'),
      Gather_congr_Fields _ _ e (Fields_insert_after pre post w w' hw hw'),
      Gather_congr_Fields _ _ e (Fields_insert_before pre post w w' hw hw')⟩
  · intro data lead trail hl ht
    refine Gather_congr_Fields _ _ e ?_
    rw [Fields_trailing (lead ++ data) trail ht, Fields_leading lead data hl]

/-- Witness for C15: `intr\n1500` and `intr 1500` give the same outcome, the field
map with `interrupts = 1500`; so does `\t intr \r\n 1500\n`. -/
theorem C15_layout_invariance_witness :
    Gather (readable (bytesOf "intr\n1500") (bytesOf "64"))
        = Gather (readable (bytesOf "intr 1500") (bytesOf "64"))
      ∧ Gather (readable (bytesOf "intr 1500") (bytesOf "64"))
        = .samples [("interrupts", 1500), ("entropy_avail", 64)]
      ∧ Gather (readable (bytesOf "\t intr \r\n 1500\n") (bytesOf "64"))
        = .samples [("interrupts", 1500), ("entropy_avail", 64)] :=
  ⟨((C15_layout_invariance (bytesOf "64")).2.1 (bytesOf "intr") (bytesOf "1500") 0x0A 0x20
      (by decide) (by decide)).1,
   by decide, by decide⟩

end Kernel
